import Mathlib

/-!
Verification development for the `pdf-ai-suite` repository's two core
components:

* the document-structure parser `parse_document_structure`
  (src/backend/app/api/routes.py), and
* the comparison engine `compare_documents` / `get_word_level_diff`
  (src/backend/app/services/document_compare.py), together with the parts
  of Python's `difflib` (`SequenceMatcher`, `unified_diff`) that those
  functions call.

The Python code is shallowly embedded: Python `str` becomes Lean `String`
(a wrapper around `List Char`), Python `list` becomes `List`, Python
`int` becomes `Int` (arbitrary precision in both), Python `float`
similarity ratios become `ℚ` built with `mkRat` (the ratios involved are
exact small fractions; binary-float rounding artifacts are noted where
they could in principle matter).  Dictionaries keyed by `ℕ` become total
functions `ℕ → ℕ` defaulting to `0`, matching `dict.get(key, 0)`.
-/

/-! ### Python character/string primitives -/

/-- Python's notion of a whitespace character (`str.isspace`, `str.split`,
`str.strip`, and the regex class `\s` all use this set, per CPython's
`Py_UNICODE_ISSPACE`). -/
def pyIsSpace (c : Char) : Bool :=
  let n := c.toNat
  (9 ≤ n && n ≤ 13) || (0x1c ≤ n && n ≤ 0x1f) || n = 32 || n = 0x85 ||
    n = 0xa0 || n = 0x1680 || (0x2000 ≤ n && n ≤ 0x200a) || n = 0x2028 ||
    n = 0x2029 || n = 0x202f || n = 0x205f || n = 0x3000

/-- Python's regex class `\d` restricted to ASCII decimal digits.  (The
source regexes use `\d`, which also admits non-ASCII Unicode decimal
digits; no claim in this development depends on non-ASCII digits.) -/
def pyIsDigit (c : Char) : Bool := c.isDigit

/-- `sep.join`-free splitting on a single separator character, with
Python `str.split(sep)` semantics: every occurrence of the separator
splits, empty pieces are kept, and the empty string yields `[[]]`. -/
def splitOnCharAux (sep : Char) : List Char → List (List Char)
  | [] => [[]]
  | c :: rest =>
    match splitOnCharAux sep rest with
    | [] => [[c]]
    | p :: ps => if c = sep then [] :: p :: ps else (c :: p) :: ps

/-- Python `s.split(sep)` for a one-character separator `sep`. -/
def pySplitOnChar (sep : Char) (s : String) : List String :=
  (splitOnCharAux sep s.data).map String.mk

/-- Python `s.split('\n')`, used by `parse_document_structure`. -/
def pySplitNl (s : String) : List String := pySplitOnChar '\n' s

/-- Python `'\n'.join(parts)`. -/
def joinNl : List String → String
  | [] => ""
  | [a] => a
  | a :: rest => a ++ "\n" ++ joinNl rest

/-- Python `' '.join(parts)`. -/
def joinSp : List String → String
  | [] => ""
  | [a] => a
  | a :: rest => a ++ " " ++ joinSp rest

/-- Python `s.startswith(p)`. -/
def pyStartsWith (s p : String) : Bool := p.data.isPrefixOf s.data

/-- Python `s.strip() == ''`: the line consists only of whitespace. -/
def isBlankLine (s : String) : Bool := s.data.all pyIsSpace

/-- Python `line[1:]`. -/
def pyDropFirst (s : String) : String := String.mk s.data.tail

/-- Whether a character is a line boundary for Python `str.splitlines`
(this set differs from `\n`-splitting: it adds `\v`, `\f`, `\x1c`-`\x1e`,
`\x85`, U+2028, U+2029 and treats `\r\n` as one boundary). -/
def isLineBoundary (c : Char) : Bool :=
  let n := c.toNat
  n = 10 || n = 11 || n = 12 || n = 13 || (0x1c ≤ n && n ≤ 0x1e) ||
    n = 0x85 || n = 0x2028 || n = 0x2029

/-- Core recursion for Python `str.splitlines` (keepends=False):
a boundary character ends the current line (with `\r\n` consumed as a
single boundary); a final line is emitted only if nonempty. -/
def splitlinesAux : List Char → List Char → List (List Char)
  | [], cur => if cur = [] then [] else [cur]
  | '\r' :: '\n' :: rest, cur => cur :: splitlinesAux rest []
  | c :: rest, cur =>
    if isLineBoundary c then cur :: splitlinesAux rest []
    else splitlinesAux rest (cur ++ [c])

/-- Python `s.splitlines()`, used by `compare_documents`. -/
def pySplitlines (s : String) : List String :=
  (splitlinesAux s.data []).map String.mk

/-- Core recursion for Python `s.split()` (no argument): split on runs of
whitespace, dropping empty pieces. -/
def pySplitWsAux : List Char → List Char → List (List Char)
  | [], cur => if cur = [] then [] else [cur]
  | c :: rest, cur =>
    if pyIsSpace c then
      if cur = [] then pySplitWsAux rest []
      else cur :: pySplitWsAux rest []
    else pySplitWsAux rest (cur ++ [c])

/-- Python `s.split()` (whitespace tokenization), used by
`get_word_level_diff`. -/
def pySplitWs (s : String) : List String :=
  (pySplitWsAux s.data []).map String.mk

/-- Python `int(s)` restricted to an optional leading `-` sign followed
by ASCII digits.  (Real `int()` additionally strips whitespace and allows
`+` and underscores; the only strings this development parses are the
digit strings inside generated unified-diff hunk headers, after the code
removes every `+`.) -/
def pyInt (s : String) : Option Int :=
  let digitsVal : List Char → Option Int := fun ds =>
    if ds = [] || ¬ ds.all pyIsDigit then none
    else some (ds.foldl (fun acc c => 10 * acc + (c.toNat - '0'.toNat)) 0)
  match s.data with
  | '-' :: ds => (digitsVal ds).map (fun n => -n)
  | ds => digitsVal ds

/-! ### The structure parser (`parse_document_structure`, routes.py) -/

/-- One structural element: the Python dict
`\x7b"type": ..., "content": ...\x7d`. -/
structure DocElement where
  type : String
  content : String
deriving DecidableEq, Repr

/-- The loop state of `parse_document_structure`: the `elements` list
built so far, the pending `current_para` buffer, and the `in_code_block`
and `in_list` flags. -/
structure ParseState where
  elements : List DocElement
  current_para : List String
  in_code_block : Bool
  in_list : Bool
deriving DecidableEq, Repr

/-- The match of `re.match(r'^(#\x7b1,6\x7d)\s+(.+)$', line)` on a
newline-free line, returning (level, group(2)).  The regex matches iff
the line starts with one to six `#` (not seven or more, since a `#` can
never satisfy `\s`), followed by at least two more characters of which
the first is whitespace.  `\s+` is greedy, so group(2) normally starts at
the first non-whitespace character; when everything after the hashes is
whitespace, backtracking leaves exactly the last character for `(.+)`. -/
def headingHashCount (line : String) : Nat :=
  (line.data.takeWhile (· = '#')).length

/-- What remains of the line after the leading `#` run. -/
def headingRest (line : String) : List Char := line.data.dropWhile (· = '#')

/-- Whether `\s+(.+)$` can match the rest: at least two characters, the
first of which is whitespace. -/
def headingRestOk (line : String) : Bool :=
  match headingRest line with
  | c :: _ :: _ => pyIsSpace c
  | _ => false

/-- Group(2) of the heading regex: `\s+` is greedy, so the text normally
starts at the first non-whitespace character of the rest; when the whole
rest is whitespace, backtracking leaves exactly its last character. -/
def headingText (line : String) : String :=
  let rest := headingRest line
  let t := rest.dropWhile pyIsSpace
  String.mk (if t = [] then rest.drop (rest.length - 1) else t)

def headingMatch (line : String) : Option (Nat × String) :=
  if 1 ≤ headingHashCount line ∧ headingHashCount line ≤ 6 ∧ headingRestOk line then
    some (headingHashCount line, headingText line)
  else none

/-- Whether `re.match(r'^[\s]*[-*+]\s+(.+)$', line)` or
`re.match(r'^[\s]*\d+\.\s+(.+)$', line)` matches: optional leading
whitespace, then either a bullet marker (`-`, `*`, `+`) or one or more
digits followed by `.`, then whitespace and at least one further
character. -/
def listMatch (line : String) : Bool :=
  let w := line.data.dropWhile pyIsSpace
  let tailOk : List Char → Bool := fun r =>
    match r with
    | c :: _ :: _ => pyIsSpace c
    | _ => false
  let bullet :=
    match w with
    | m :: r => (m = '-' || m = '*' || m = '+') && tailOk r
    | [] => false
  let digits := w.takeWhile pyIsDigit
  let afterDigits := w.dropWhile pyIsDigit
  let numbered :=
    digits ≠ [] &&
      (match afterDigits with
       | '.' :: r => tailOk r
       | _ => false)
  bullet || numbered

/-- The body of `parse_document_structure`'s `for` loop, translated
branch by branch (code fences, inside-code accumulation, headings, list
markers, blank-line-in-list, and the final regular-paragraph cases). -/
def parseStep (st : ParseState) (line : String) : ParseState :=
  if pyStartsWith line "```" then
    if st.in_code_block then
      { st with elements := st.elements ++ [⟨"code_block", joinNl st.current_para⟩],
                current_para := [], in_code_block := false }
    else
      let els := if st.current_para ≠ [] then
          st.elements ++ [⟨"paragraph", joinNl st.current_para⟩]
        else st.elements
      { st with elements := els, current_para := [], in_code_block := true }
  else if st.in_code_block then
    { st with current_para := st.current_para ++ [line] }
  else
    match headingMatch line with
    | some (level, text) =>
      let els := if st.current_para ≠ [] then
          st.elements ++ [⟨"paragraph", joinNl st.current_para⟩]
        else st.elements
      { st with elements := els ++ [⟨"heading_" ++ toString level, text⟩],
                current_para := [] }
    | none =>
      if listMatch line then
        let flushPara := st.current_para ≠ [] ∧ ¬ st.in_list
        let els := if flushPara then
            st.elements ++ [⟨"paragraph", joinNl st.current_para⟩]
          else st.elements
        let para := if flushPara then [] else st.current_para
        { st with elements := els, current_para := para ++ [line], in_list := true }
      else if st.in_list ∧ isBlankLine line then
        { st with elements := st.elements ++ [⟨"list", joinNl st.current_para⟩],
                  current_para := [], in_list := false }
      else if ¬ isBlankLine line then
        { st with current_para := st.current_para ++ [line] }
      else if st.current_para ≠ [] then
        let el : DocElement :=
          ⟨(if st.in_list then "list" else "paragraph"), joinNl st.current_para⟩
        { st with elements := st.elements ++ [el], current_para := [], in_list := false }
      else st

/-- The final-element flush after `parse_document_structure`'s loop:
a non-empty buffer is emitted as `list` if `in_list` else `paragraph`. -/
def parseFinish (st : ParseState) : List DocElement :=
  if st.current_para ≠ [] then
    st.elements ++
      [⟨(if st.in_list then "list" else "paragraph"), joinNl st.current_para⟩]
  else st.elements

/-- The initial loop state of `parse_document_structure`. -/
def parseInit : ParseState := ⟨[], [], false, false⟩

/-- `parse_document_structure(markdown)` from
src/backend/app/api/routes.py: split the input on `'\n'`, run the
state-machine loop over the lines, and flush the final buffer. -/
def parse_document_structure (markdown : String) : List DocElement :=
  parseFinish ((pySplitNl markdown).foldl parseStep parseInit)

/-! ### Reference description of the kept lines (for claim C1)

`specKeptLines` is NOT translated from the source; it is the spec's own
description of which line contents survive parsing: fence-marker lines
are excluded (toggling the code state), inside a code block every line is
kept verbatim, a heading line contributes its marker-stripped text, blank
lines outside code blocks are dropped, and every other line is kept
verbatim.  Claim C1 compares `parse_document_structure` against it. -/
def specKeptLines : Bool → List String → List String
  | _, [] => []
  | inCode, line :: rest =>
    if pyStartsWith line "```" then specKeptLines (!inCode) rest
    else if inCode then line :: specKeptLines inCode rest
    else
      match headingMatch line with
      | some (_, text) => text :: specKeptLines false rest
      | none =>
        if isBlankLine line then specKeptLines false rest
        else line :: specKeptLines false rest

/-- The individual lines of an element's content: `content` is a
`'\n'.join` of buffered lines, and an empty content carries no lines. -/
def linesOf (c : String) : List String := if c = "" then [] else pySplitNl c

/-- All lines carried by a sequence of elements, in order. -/
def allKeptLines (els : List DocElement) : List String :=
  (els.map (fun e => linesOf e.content)).flatten

/-- Discard blank (whitespace-only) lines. -/
def dropBlank (ls : List String) : List String :=
  ls.filter (fun l => ! isBlankLine l)

theorem joinNl_cons (a : String) (l : List String) (h : l ≠ []) :
    joinNl (a :: l) = a ++ "\n" ++ joinNl l := by
  cases l with
  | nil => exact absurd rfl h
  | cons b t => rfl

theorem splitOnCharAux_ne_nil (sep : Char) (l : List Char) :
    splitOnCharAux sep l ≠ [] := by
  cases l with
  | nil => simp [splitOnCharAux]
  | cons c rest =>
    simp only [splitOnCharAux]
    cases splitOnCharAux sep rest with
    | nil => simp
    | cons p ps =>
      by_cases hc : c = sep <;> simp [hc]

theorem splitOnCharAux_of_not_mem (sep : Char) (l : List Char)
    (h : sep ∉ l) : splitOnCharAux sep l = [l] := by
  induction l with
  | nil => rfl
  | cons c rest ih =>
    have hc : c ≠ sep := fun hc => h (hc ▸ List.mem_cons_self c rest)
    have hr : sep ∉ rest := fun hm => h (List.mem_cons_of_mem c hm)
    simp [splitOnCharAux, hc, ih hr]

theorem splitOnCharAux_append_sep (sep : Char) (l1 l2 : List Char)
    (h : sep ∉ l1) :
    splitOnCharAux sep (l1 ++ sep :: l2) = l1 :: splitOnCharAux sep l2 := by
  induction l1 with
  | nil =>
    simp only [List.nil_append, splitOnCharAux]
    cases hsp : splitOnCharAux sep l2 with
    | nil => exact absurd hsp (splitOnCharAux_ne_nil _ _)
    | cons p ps => simp
  | cons c rest ih =>
    have hc : c ≠ sep := fun hc => h (hc ▸ List.mem_cons_self c rest)
    have hr : sep ∉ rest := fun hm => h (List.mem_cons_of_mem c hm)
    simp only [List.cons_append, splitOnCharAux, List.append_eq]
    rw [ih hr]
    simp [hc]

theorem pySplitNl_joinNl (parts : List String) (h1 : parts ≠ [])
    (h2 : ∀ p ∈ parts, '\n' ∉ p.data) :
    pySplitNl (joinNl parts) = parts := by
  induction parts with
  | nil => exact absurd rfl h1
  | cons a rest ih =>
    cases rest with
    | nil =>
      have ha : '\n' ∉ a.data := h2 a (List.mem_cons_self a [])
      simp [pySplitNl, pySplitOnChar, joinNl, splitOnCharAux_of_not_mem _ _ ha]
    | cons b t =>
      have ha : '\n' ∉ a.data := h2 a (List.mem_cons_self _ _)
      have hrest : ∀ p ∈ b :: t, '\n' ∉ p.data :=
        fun p hp => h2 p (List.mem_cons_of_mem a hp)
      have hj : joinNl (a :: b :: t) = a ++ "\n" ++ joinNl (b :: t) := rfl
      have hdata : (joinNl (a :: b :: t)).data
          = a.data ++ '\n' :: (joinNl (b :: t)).data := by
        simp [hj, String.data_append]
      have ihr := ih (by simp) hrest
      simp only [pySplitNl, pySplitOnChar] at ihr ⊢
      rw [hdata, splitOnCharAux_append_sep _ _ _ ha]
      simp only [List.map_cons, ihr]

theorem linesOf_joinNl (parts : List String) (h1 : parts ≠ [])
    (h2 : ∀ p ∈ parts, '\n' ∉ p.data) (h3 : parts ≠ [""]) :
    linesOf (joinNl parts) = parts := by
  have hne : joinNl parts ≠ "" := by
    cases parts with
    | nil => exact absurd rfl h1
    | cons a rest =>
      cases rest with
      | nil =>
        intro hc
        apply h3
        have ha : a = "" := hc
        rw [ha]
      | cons b t =>
        intro hc
        have h5 : (joinNl (a :: b :: t)).data = [] := by rw [hc]
        have h4 : (joinNl (a :: b :: t)).data
            = a.data ++ '\n' :: (joinNl (b :: t)).data := by
          have hj : joinNl (a :: b :: t) = a ++ "\n" ++ joinNl (b :: t) := rfl
          simp [hj, String.data_append]
        rw [h4] at h5
        simp at h5
  simp [linesOf, hne, pySplitNl_joinNl parts h1 h2]

theorem dropBlank_linesOf_joinNl (parts : List String)
    (h2 : ∀ p ∈ parts, '\n' ∉ p.data) :
    dropBlank (linesOf (joinNl parts)) = dropBlank parts := by
  by_cases h1 : parts = []
  · subst h1; rfl
  by_cases h3 : parts = [""]
  · subst h3
    decide
  · rw [linesOf_joinNl parts h1 h2 h3]

theorem mem_pySplitNl_nl_free (s : String) :
    ∀ l ∈ pySplitNl s, '\n' ∉ l.data := by
  have key : ∀ (l : List Char), ∀ p ∈ splitOnCharAux '\n' l, '\n' ∉ p := by
    intro l
    induction l with
    | nil => simp [splitOnCharAux]
    | cons c rest ih =>
      intro p hp
      simp only [splitOnCharAux] at hp
      cases hsp : splitOnCharAux '\n' rest with
      | nil => exact absurd hsp (splitOnCharAux_ne_nil _ _)
      | cons q t =>
        rw [hsp] at hp
        by_cases hc : c = '\n'
        · simp [hc] at hp
          rcases hp with hp | hp | hp
          · simp [hp]
          · subst hp
            exact ih p (hsp ▸ List.mem_cons_self p t)
          · exact ih p (hsp ▸ List.mem_cons_of_mem q hp)
        · simp [hc] at hp
          rcases hp with hp | hp
          · subst hp
            intro hmem
            rcases List.mem_cons.mp hmem with h | h
            · exact hc h.symm
            · exact ih q (hsp ▸ List.mem_cons_self q t) h
          · exact ih p (hsp ▸ List.mem_cons_of_mem q hp)
  intro l hl
  simp only [pySplitNl, pySplitOnChar, List.mem_map] at hl
  obtain ⟨p, hp, rfl⟩ := hl
  exact key s.data p hp

theorem linesOf_single (s : String) (h1 : s ≠ "") (h2 : '\n' ∉ s.data) :
    linesOf s = [s] := by
  have : pySplitNl s = [s] := by
    simp [pySplitNl, pySplitOnChar, splitOnCharAux_of_not_mem _ _ h2]
  simp [linesOf, h1, this]


theorem data_mk (l : List Char) : (String.mk l).data = l := rfl

theorem headingMatch_some_parts (line : String) (k : Nat) (t : String)
    (h : headingMatch line = some (k, t)) :
    k = headingHashCount line ∧ t = headingText line ∧
      1 ≤ headingHashCount line ∧ headingRestOk line = true := by
  simp only [headingMatch] at h
  split at h
  · rename_i hc
    simp only [Option.some.injEq, Prod.mk.injEq] at h
    exact ⟨h.1.symm, h.2.symm, hc.1, hc.2.2⟩
  · simp at h

theorem headingText_ne_empty (line : String)
    (hok : headingRestOk line = true) : headingText line ≠ "" := by
  simp only [headingRestOk] at hok
  simp only [headingText]
  cases hr : headingRest line with
  | nil => rw [hr] at hok; simp at hok
  | cons c rest2 =>
    cases rest2 with
    | nil => rw [hr] at hok; simp at hok
    | cons d rest3 =>
      intro hcon
      have hdata : (if (c :: d :: rest3).dropWhile pyIsSpace = []
          then (c :: d :: rest3).drop ((c :: d :: rest3).length - 1)
          else (c :: d :: rest3).dropWhile pyIsSpace) = [] :=
        congrArg String.data hcon
      split at hdata
      · have hlen := congrArg List.length hdata
        simp [List.length_drop] at hlen
      · rename_i hne
        exact hne hdata

theorem headingText_sublist (line : String) :
    (headingText line).data.Sublist line.data := by
  have h0 : (headingRest line).Sublist line.data := List.dropWhile_sublist _
  simp only [headingText, data_mk]
  split
  · exact (List.drop_sublist _ _).trans h0
  · exact (List.dropWhile_sublist _).trans h0

theorem headingMatch_head (line : String) (k : Nat) (t : String)
    (h : headingMatch line = some (k, t)) : ∃ cs, line.data = '#' :: cs := by
  obtain ⟨-, -, h1, -⟩ := headingMatch_some_parts line k t h
  simp only [headingHashCount] at h1
  cases hd : line.data with
  | nil => rw [hd] at h1; simp at h1
  | cons c cs =>
    rw [hd] at h1
    by_cases hc : c = '#'
    · exact ⟨cs, by rw [hc]⟩
    · simp [List.takeWhile, hc] at h1

theorem headingMatch_not_fence (line : String) (k : Nat) (t : String)
    (h : headingMatch line = some (k, t)) :
    pyStartsWith line "```" = false := by
  obtain ⟨cs, hd⟩ := headingMatch_head line k t h
  simp [pyStartsWith, hd, List.isPrefixOf]

theorem headingMatch_of_blank (line : String)
    (h : isBlankLine line = true) : headingMatch line = none := by
  have htw : headingHashCount line = 0 := by
    simp only [headingHashCount]
    cases hd : line.data with
    | nil => simp
    | cons c cs =>
      have hc : pyIsSpace c = true := by
        simp only [isBlankLine, hd, List.all_cons, Bool.and_eq_true] at h
        exact h.1
      have hcn : ¬ (c = '#') := by
        intro hcc
        rw [hcc] at hc
        exact absurd hc (by decide)
      simp [List.takeWhile, hcn]
  simp [headingMatch, htw]

theorem dropWhile_of_all (l : List Char)
    (h : ∀ c ∈ l, pyIsSpace c = true) : l.dropWhile pyIsSpace = [] := by
  induction l with
  | nil => rfl
  | cons c cs ih =>
    have hc := h c (List.mem_cons_self c cs)
    simp only [List.dropWhile, hc]
    exact ih (fun d hd => h d (List.mem_cons_of_mem c hd))

theorem listMatch_not_blank (line : String)
    (h : listMatch line = true) : isBlankLine line = false := by
  cases hbl : isBlankLine line
  · rfl
  · exfalso
    have hall : ∀ c ∈ line.data, pyIsSpace c = true := by
      intro c hc
      simpa using (List.all_eq_true.mp hbl) c hc
    have hw : line.data.dropWhile pyIsSpace = [] := dropWhile_of_all _ hall
    simp [listMatch, hw] at h

theorem dropBlank_append (xs ys : List String) :
    dropBlank (xs ++ ys) = dropBlank xs ++ dropBlank ys := by
  simp [dropBlank]

theorem allKeptLines_append_one (els : List DocElement) (e : DocElement) :
    allKeptLines (els ++ [e]) = allKeptLines els ++ linesOf e.content := by
  simp [allKeptLines]

theorem headingText_nl_free (line : String) (hline : '\n' ∉ line.data) :
    '\n' ∉ (headingText line).data :=
  fun hmem => hline ((headingText_sublist line).subset hmem)

/-- The non-blank lines already committed by a parse state: lines inside
flushed elements followed by the pending buffer. -/
def pending (st : ParseState) : List String :=
  dropBlank (allKeptLines st.elements) ++ dropBlank st.current_para

theorem dropBlank_nil : dropBlank [] = [] := rfl

theorem pending_flush_one (st : ParseState) (ty : String)
    (hb : ∀ l ∈ st.current_para, '\n' ∉ l.data) :
    dropBlank (allKeptLines (st.elements ++ [⟨ty, joinNl st.current_para⟩]))
      = pending st := by
  rw [allKeptLines_append_one, dropBlank_append]
  show _ ++ dropBlank (linesOf (joinNl st.current_para)) = _
  rw [dropBlank_linesOf_joinNl _ hb, pending]


theorem pending_mk (els : List DocElement) (buf : List String) (c il : Bool) :
    pending ⟨els, buf, c, il⟩ = dropBlank (allKeptLines els) ++ dropBlank buf := rfl

theorem dropBlank_cons_split (x : String) (xs : List String) :
    dropBlank (x :: xs) = dropBlank [x] ++ dropBlank xs := by
  cases h : isBlankLine x <;> simp [dropBlank, List.filter_cons, h]

theorem parseRun_dropBlank (lines : List String) : ∀ st : ParseState,
    (∀ l ∈ lines, '\n' ∉ l.data) →
    (∀ l ∈ st.current_para, '\n' ∉ l.data) →
    dropBlank (allKeptLines (parseFinish (lines.foldl parseStep st)))
      = pending st ++ dropBlank (specKeptLines st.in_code_block lines) := by
  induction lines with
  | nil =>
    intro st hl hb
    simp only [List.foldl_nil, specKeptLines, parseFinish]
    split
    · rw [pending_flush_one st _ hb, dropBlank_nil, List.append_nil]
    · rename_i hbuf
      simp [pending, not_not.mp hbuf, dropBlank_nil]
  | cons line rest ih =>
    intro st hl hb
    have hline : '\n' ∉ line.data := hl line (List.mem_cons_self _ _)
    have hrest : ∀ l ∈ rest, '\n' ∉ l.data := fun l h => hl l (List.mem_cons_of_mem _ h)
    have hbext : ∀ l ∈ st.current_para ++ [line], '\n' ∉ l.data := by
      intro l hm
      rcases List.mem_append.mp hm with hm | hm
      · exact hb l hm
      · rw [List.mem_singleton.mp hm]; exact hline
    rw [List.foldl_cons]
    by_cases hf : pyStartsWith line "```" = true
    · by_cases hcode : st.in_code_block = true
      · -- closing fence: flush the code block
        have hstep : parseStep st line =
            ⟨st.elements ++ [⟨"code_block", joinNl st.current_para⟩], [], false, st.in_list⟩ := by
          simp [parseStep, hf, hcode]
        rw [hstep, ih _ hrest (by simp), pending_mk, pending_flush_one st _ hb,
          dropBlank_nil, List.append_nil]
        simp [specKeptLines, hf, hcode]
      · have hcode' : st.in_code_block = false := eq_false_of_ne_true hcode
        by_cases hbuf : st.current_para ≠ []
        · -- opening fence with a pending paragraph
          have hstep : parseStep st line =
              ⟨st.elements ++ [⟨"paragraph", joinNl st.current_para⟩], [], true, st.in_list⟩ := by
            simp [parseStep, hf, hcode', hbuf]
          rw [hstep, ih _ hrest (by simp), pending_mk, pending_flush_one st _ hb,
            dropBlank_nil, List.append_nil]
          simp [specKeptLines, hf, hcode']
        · -- opening fence with an empty buffer
          have hbuf' : st.current_para = [] := not_not.mp hbuf
          have hstep : parseStep st line = ⟨st.elements, [], true, st.in_list⟩ := by
            simp [parseStep, hf, hcode', hbuf']
          rw [hstep, ih _ hrest (by simp), pending_mk]
          simp [pending, specKeptLines, hf, hcode', hbuf', dropBlank_nil]
    · by_cases hcode : st.in_code_block = true
      · -- inside a code block: append the line verbatim
        have hstep : parseStep st line =
            ⟨st.elements, st.current_para ++ [line], st.in_code_block, st.in_list⟩ := by
          simp [parseStep, hf, hcode]
        rw [hstep, ih _ hrest hbext, pending_mk, dropBlank_append, hcode]
        have hsk : specKeptLines true (line :: rest)
            = line :: specKeptLines true rest := by
          simp [specKeptLines, hf]
        rw [hsk]
        simp only [pending, List.append_assoc]
        cases hbl : isBlankLine line <;> simp [dropBlank, List.filter_cons, hbl]
      · have hcode' : st.in_code_block = false := eq_false_of_ne_true hcode
        cases hh : headingMatch line with
        | some kt =>
          obtain ⟨k, t⟩ := kt
          obtain ⟨-, hteq, -, hok⟩ := headingMatch_some_parts line k t hh
          have htne : t ≠ "" := hteq ▸ headingText_ne_empty line hok
          have htnl : '\n' ∉ t.data := hteq ▸ headingText_nl_free line hline
          have hstep : parseStep st line =
              ⟨(if st.current_para ≠ [] then
                  st.elements ++ [⟨"paragraph", joinNl st.current_para⟩] else st.elements)
                ++ [⟨"heading_" ++ toString k, t⟩], [], st.in_code_block, st.in_list⟩ := by
            by_cases hbuf : st.current_para ≠ [] <;> simp [parseStep, hf, hcode', hh, hbuf]
          rw [hstep, ih _ hrest (by simp), pending_mk, hcode',
            allKeptLines_append_one, dropBlank_append]
          have h2 : linesOf (⟨"heading_" ++ toString k, t⟩ : DocElement).content = [t] :=
            linesOf_single t htne htnl
          rw [h2]
          have hsk : specKeptLines false (line :: rest)
              = t :: specKeptLines false rest := by
            simp [specKeptLines, hf, hh]
          rw [hsk]
          have hels : dropBlank (allKeptLines (if st.current_para ≠ [] then
              st.elements ++ [⟨"paragraph", joinNl st.current_para⟩] else st.elements))
              = pending st := by
            by_cases hbuf : st.current_para ≠ []
            · rw [if_pos hbuf, pending_flush_one st _ hb]
            · rw [if_neg hbuf]
              simp [pending, not_not.mp hbuf, dropBlank_nil]
          rw [hels]
          simp only [List.append_assoc]
          cases hbl : isBlankLine t <;> simp [dropBlank, List.filter_cons, hbl]
        | none =>
          by_cases hl2 : listMatch line = true
          · -- a list-marker line
            have hnb : isBlankLine line = false := listMatch_not_blank line hl2
            have hsk : specKeptLines false (line :: rest)
                = line :: specKeptLines false rest := by
              simp [specKeptLines, hf, hh, hnb]
            by_cases hfp : st.current_para ≠ [] ∧ ¬ st.in_list = true
            · have hstep : parseStep st line =
                  ⟨st.elements ++ [⟨"paragraph", joinNl st.current_para⟩], [line],
                    st.in_code_block, true⟩ := by
                simp [parseStep, hf, hcode', hh, hl2, hfp]
              rw [hstep, ih _ hrest (by
                  intro l hm
                  rw [List.mem_singleton.mp hm]; exact hline),
                pending_mk, pending_flush_one st _ hb, hcode', hsk]
              simp only [List.append_assoc]
              cases hbl : isBlankLine line <;> simp [dropBlank, List.filter_cons, hbl]
            · have hstep : parseStep st line =
                  ⟨st.elements, st.current_para ++ [line], st.in_code_block, true⟩ := by
                cases hil2 : st.in_list with
                | true => simp [parseStep, hf, hcode', hh, hl2, hil2]
                | false =>
                  have hb0 : st.current_para = [] := by
                    by_contra hc
                    exact hfp ⟨hc, by simp [hil2]⟩
                  simp [parseStep, hf, hcode', hh, hl2, hil2, hb0]
              rw [hstep, ih _ hrest hbext, pending_mk, dropBlank_append, hcode', hsk]
              simp only [pending, List.append_assoc]
              cases hbl : isBlankLine line <;> simp [dropBlank, List.filter_cons, hbl]
          · by_cases hil : st.in_list = true ∧ isBlankLine line = true
            · -- blank line while in a list: flush the list element
              have hstep : parseStep st line =
                  ⟨st.elements ++ [⟨"list", joinNl st.current_para⟩], [],
                    st.in_code_block, false⟩ := by
                simp [parseStep, hf, hcode', hh, hl2, hil]
              rw [hstep, ih _ hrest (by simp), pending_mk, pending_flush_one st _ hb,
                dropBlank_nil, List.append_nil]
              simp [specKeptLines, hf, hcode', hh, hil.2]
            · by_cases hnb : ¬ isBlankLine line = true
              · -- ordinary non-blank line: extend the buffer
                have hstep : parseStep st line =
                    ⟨st.elements, st.current_para ++ [line], st.in_code_block, st.in_list⟩ := by
                  simp only [parseStep, hf, hcode', hh, hl2]
                  simp [hil, hnb]
                have hsk : specKeptLines false (line :: rest)
                    = line :: specKeptLines false rest := by
                  simp [specKeptLines, hf, hh, eq_false_of_ne_true hnb]
                rw [hstep, ih _ hrest hbext, pending_mk, dropBlank_append, hcode', hsk]
                simp only [pending, List.append_assoc]
                cases hbl : isBlankLine line <;> simp [dropBlank, List.filter_cons, hbl]
              · have hnb' : isBlankLine line = true := not_not.mp hnb
                have hilf : st.in_list = false := by
                  cases hv : st.in_list
                  · rfl
                  · exact absurd ⟨hv, hnb'⟩ hil
                have hsk : specKeptLines false (line :: rest)
                    = specKeptLines false rest := by
                  simp [specKeptLines, hf, hh, hnb']
                by_cases hbuf : st.current_para ≠ []
                · -- blank line flushes the buffer
                  have hstep : parseStep st line =
                      ⟨st.elements ++ [⟨(if st.in_list then "list" else "paragraph"),
                        joinNl st.current_para⟩], [], st.in_code_block, false⟩ := by
                    simp only [parseStep, hf, hcode', hh, hl2]
                    simp [hilf, hnb', hbuf]
                  rw [hstep, ih _ hrest (by simp), pending_mk, pending_flush_one st _ hb,
                    dropBlank_nil, List.append_nil, hcode', hsk]
                · -- blank line with an empty buffer: no-op
                  have hbuf' : st.current_para = [] := not_not.mp hbuf
                  have hstep : parseStep st line = st := by
                    simp only [parseStep, hf, hcode', hh, hl2]
                    simp [hilf, hnb', hbuf']
                  rw [hstep, ih _ hrest hb, hcode', hsk]

theorem linesOf_joinNl_of_nonblank (parts : List String)
    (h : ∀ p ∈ parts, '\n' ∉ p.data ∧ isBlankLine p = false) :
    linesOf (joinNl parts) = parts := by
  cases hp : parts with
  | nil => rfl
  | cons a t =>
    rw [← hp]
    have hne : parts ≠ [""] := by
      intro hc
      have := (h "" (by rw [hc]; exact List.mem_cons_self _ _)).2
      simp [isBlankLine] at this
    exact linesOf_joinNl parts (by rw [hp]; simp) (fun p hm => (h p hm).1) hne

theorem linesOf_content_mk (ty c : String) :
    linesOf (⟨ty, c⟩ : DocElement).content = linesOf c := rfl

theorem parseRun_noFence (lines : List String) : ∀ st : ParseState,
    (∀ l ∈ lines, pyStartsWith l "```" = false) →
    (∀ l ∈ lines, '\n' ∉ l.data) →
    st.in_code_block = false →
    (∀ l ∈ st.current_para, '\n' ∉ l.data ∧ isBlankLine l = false) →
    allKeptLines (parseFinish (lines.foldl parseStep st))
      = allKeptLines st.elements ++ st.current_para ++ specKeptLines false lines := by
  induction lines with
  | nil =>
    intro st _ _ _ hbuf
    simp only [List.foldl_nil, specKeptLines, parseFinish]
    split
    · rw [allKeptLines_append_one, linesOf_content_mk,
        linesOf_joinNl_of_nonblank _ hbuf]
      simp
    · rename_i hb
      simp [not_not.mp hb]
  | cons line rest ih =>
    intro st hnf hl hcode' hbuf
    have hline : '\n' ∉ line.data := hl line (List.mem_cons_self _ _)
    have hrest : ∀ l ∈ rest, '\n' ∉ l.data := fun l h => hl l (List.mem_cons_of_mem _ h)
    have hnfl : pyStartsWith line "```" = false := hnf line (List.mem_cons_self _ _)
    have hnfr : ∀ l ∈ rest, pyStartsWith l "```" = false :=
      fun l h => hnf l (List.mem_cons_of_mem _ h)
    have hf : ¬ pyStartsWith line "```" = true := by simp [hnfl]
    rw [List.foldl_cons]
    cases hh : headingMatch line with
    | some kt =>
      obtain ⟨k, t⟩ := kt
      obtain ⟨-, hteq, -, hok⟩ := headingMatch_some_parts line k t hh
      have htne : t ≠ "" := hteq ▸ headingText_ne_empty line hok
      have htnl : '\n' ∉ t.data := hteq ▸ headingText_nl_free line hline
      have hstep : parseStep st line =
          ⟨(if st.current_para ≠ [] then
              st.elements ++ [⟨"paragraph", joinNl st.current_para⟩] else st.elements)
            ++ [⟨"heading_" ++ toString k, t⟩], [], st.in_code_block, st.in_list⟩ := by
        by_cases hb2 : st.current_para ≠ [] <;> simp [parseStep, hf, hcode', hh, hb2]
      rw [hstep, ih _ hnfr hrest (by simp [hcode']) (by simp),
        allKeptLines_append_one]
      have h2 : linesOf (⟨"heading_" ++ toString k, t⟩ : DocElement).content = [t] :=
        linesOf_single t htne htnl
      rw [h2]
      have hsk : specKeptLines false (line :: rest) = t :: specKeptLines false rest := by
        simp [specKeptLines, hf, hh]
      rw [hsk]
      by_cases hb2 : st.current_para ≠ []
      · rw [if_pos hb2, allKeptLines_append_one, linesOf_content_mk,
          linesOf_joinNl_of_nonblank _ hbuf]
        simp
      · rw [if_neg hb2]
        simp [not_not.mp hb2]
    | none =>
      by_cases hl2 : listMatch line = true
      · have hnb : isBlankLine line = false := listMatch_not_blank line hl2
        have hsk : specKeptLines false (line :: rest) = line :: specKeptLines false rest := by
          simp [specKeptLines, hf, hh, hnb]
        by_cases hfp : st.current_para ≠ [] ∧ ¬ st.in_list = true
        · have hstep : parseStep st line =
              ⟨st.elements ++ [⟨"paragraph", joinNl st.current_para⟩], [line],
                st.in_code_block, true⟩ := by
            simp [parseStep, hf, hcode', hh, hl2, hfp]
          rw [hstep, ih _ hnfr hrest (by simp [hcode']) (by
              intro l hm
              rw [List.mem_singleton.mp hm]
              exact ⟨hline, hnb⟩),
            allKeptLines_append_one, linesOf_content_mk,
            linesOf_joinNl_of_nonblank _ hbuf, hsk]
          simp
        · have hstep : parseStep st line =
              ⟨st.elements, st.current_para ++ [line], st.in_code_block, true⟩ := by
            cases hil2 : st.in_list with
            | true => simp [parseStep, hf, hcode', hh, hl2, hil2]
            | false =>
              have hb0 : st.current_para = [] := by
                by_contra hc
                exact hfp ⟨hc, by simp [hil2]⟩
              simp [parseStep, hf, hcode', hh, hl2, hil2, hb0]
          rw [hstep, ih _ hnfr hrest (by simp [hcode']) (by
              intro l hm
              rcases List.mem_append.mp hm with hm | hm
              · exact hbuf l hm
              · rw [List.mem_singleton.mp hm]; exact ⟨hline, hnb⟩), hsk]
          simp
      · by_cases hil : st.in_list = true ∧ isBlankLine line = true
        · have hstep : parseStep st line =
              ⟨st.elements ++ [⟨"list", joinNl st.current_para⟩], [],
                st.in_code_block, false⟩ := by
            simp [parseStep, hf, hcode', hh, hl2, hil]
          rw [hstep, ih _ hnfr hrest (by simp [hcode']) (by simp),
            allKeptLines_append_one, linesOf_content_mk,
            linesOf_joinNl_of_nonblank _ hbuf]
          simp [specKeptLines, hf, hh, hil.2]
        · by_cases hnb : ¬ isBlankLine line = true
          · have hstep : parseStep st line =
                ⟨st.elements, st.current_para ++ [line], st.in_code_block, st.in_list⟩ := by
              simp only [parseStep, hf, hcode', hh, hl2]
              simp [hil, hnb]
            have hsk : specKeptLines false (line :: rest)
                = line :: specKeptLines false rest := by
              simp [specKeptLines, hf, hh, eq_false_of_ne_true hnb]
            rw [hstep, ih _ hnfr hrest (by simp [hcode']) (by
                intro l hm
                rcases List.mem_append.mp hm with hm | hm
                · exact hbuf l hm
                · rw [List.mem_singleton.mp hm]
                  exact ⟨hline, eq_false_of_ne_true hnb⟩), hsk]
            simp
          · have hnb' : isBlankLine line = true := not_not.mp hnb
            have hilf : st.in_list = false := by
              cases hv : st.in_list
              · rfl
              · exact absurd ⟨hv, hnb'⟩ hil
            have hsk : specKeptLines false (line :: rest) = specKeptLines false rest := by
              simp [specKeptLines, hf, hh, hnb']
            by_cases hb2 : st.current_para ≠ []
            · have hstep : parseStep st line =
                  ⟨st.elements ++ [⟨(if st.in_list then "list" else "paragraph"),
                    joinNl st.current_para⟩], [], st.in_code_block, false⟩ := by
                simp only [parseStep, hf, hcode', hh, hl2]
                simp [hilf, hnb', hb2]
              rw [hstep, ih _ hnfr hrest (by simp [hcode']) (by simp),
                allKeptLines_append_one, linesOf_content_mk,
                linesOf_joinNl_of_nonblank _ hbuf, hsk]
              simp
            · have hstep : parseStep st line = st := by
                simp only [parseStep, hf, hcode', hh, hl2]
                simp [hilf, hnb', not_not.mp hb2]
              rw [hstep, ih _ hnfr hrest hcode' hbuf, hsk]

/-! ### Claims C1-C3 about the structure parser -/

/-- Claim C1: for every input string, the parser's elements form a
lossless partition of the non-blank content: (i) the non-blank lines
carried by the emitted elements, in order, are exactly the non-blank
survivors of the spec's kept-lines description (every non-blank source
line exactly once and in source order, heading markers stripped, fence
lines excluded); (ii) inside a code block every line — including blank
ones — is appended to the element buffer verbatim; (iii) for fence-free
input the partition is exact even without discarding blank lines. -/
theorem c1_parser_lossless_partition (s : String) :
    dropBlank (allKeptLines (parse_document_structure s))
      = dropBlank (specKeptLines false (pySplitNl s))
    ∧ (∀ (st : ParseState) (line : String),
        st.in_code_block = true → pyStartsWith line "```" = false →
        parseStep st line = { st with current_para := st.current_para ++ [line] })
    ∧ ((∀ l ∈ pySplitNl s, pyStartsWith l "```" = false) →
        allKeptLines (parse_document_structure s) = specKeptLines false (pySplitNl s)) := by
  refine ⟨?_, ?_, ?_⟩
  · have h := parseRun_dropBlank (pySplitNl s) parseInit (mem_pySplitNl_nl_free s)
      (by simp [parseInit])
    simpa [parse_document_structure, parseInit, pending, allKeptLines, dropBlank] using h
  · intro st line hcode hf
    simp [parseStep, hf, hcode]
  · intro hnf
    have h := parseRun_noFence (pySplitNl s) parseInit hnf (mem_pySplitNl_nl_free s)
      rfl (by simp [parseInit])
    simpa [parse_document_structure, parseInit, allKeptLines] using h

theorem c1_witness :
    allKeptLines (parse_document_structure "# T\npara one\n\n- a\n- b")
      = specKeptLines false (pySplitNl "# T\npara one\n\n- a\n- b") :=
  (c1_parser_lossless_partition "# T\npara one\n\n- a\n- b").2.2 (by decide)

/-- Claim C2 counterexample: input that ends inside an unterminated code
block is flushed as a `paragraph`, not as a `code_block`: the final-flush
code chooses only between `list` and `paragraph`. -/
theorem c2_counterexample :
    parse_document_structure "```\nx" = [⟨"paragraph", "x"⟩] ∧
    ∀ e ∈ parse_document_structure "```\nx", e.type ≠ "code_block" :=
  ⟨by decide, by decide⟩

/-- Claim C2 (amended): at end of input any non-empty buffer is flushed
as a final element whose type is `list` if `in_list` is still set and
`paragraph` otherwise — including when an unterminated code block is
open, whose buffer is therefore flushed as `paragraph` (or `list`), never
as `code_block`; an empty buffer adds no final element. -/
theorem c2_final_flush (s : String) :
    (((pySplitNl s).foldl parseStep parseInit).current_para ≠ [] →
      parse_document_structure s
        = ((pySplitNl s).foldl parseStep parseInit).elements
          ++ [⟨(if ((pySplitNl s).foldl parseStep parseInit).in_list then "list"
               else "paragraph"),
               joinNl ((pySplitNl s).foldl parseStep parseInit).current_para⟩])
    ∧ (((pySplitNl s).foldl parseStep parseInit).current_para = [] →
      parse_document_structure s = ((pySplitNl s).foldl parseStep parseInit).elements) := by
  constructor <;> intro h <;> simp [parse_document_structure, parseFinish, h]

theorem c2_witness :
    parse_document_structure "```\nx"
      = ((pySplitNl "```\nx").foldl parseStep parseInit).elements
        ++ [⟨(if ((pySplitNl "```\nx").foldl parseStep parseInit).in_list then "list"
             else "paragraph"),
             joinNl ((pySplitNl "```\nx").foldl parseStep parseInit).current_para⟩] :=
  (c2_final_flush "```\nx").1 (by decide)

/-- Claim C3 counterexample: a heading line reached while `in_list` is
set flushes the pending buffer as a `paragraph`, not as a `list`: the
heading branch's flush is unconditionally `paragraph`. -/
theorem c3_counterexample :
    parse_document_structure "- a\n# H" = [⟨"paragraph", "- a"⟩, ⟨"heading_1", "H"⟩] ∧
    ∀ e ∈ parse_document_structure "- a\n# H", e.type ≠ "list" :=
  ⟨by decide, by decide⟩

/-- Claim C3 (amended): outside a code block, a line matching the heading
pattern flushes any pending buffer as a `paragraph` (regardless of
`in_list`) and then emits exactly one `heading_<level>` element whose
level is the count of leading `#` and whose content is the regex's
group(2) (the text after the marker and the greedy whitespace run); in
particular `"### Title"` yields exactly `[heading_3 "Title"]`. -/
theorem c3_heading_step :
    (∀ (st : ParseState) (line : String) (k : Nat) (t : String),
      st.in_code_block = false → headingMatch line = some (k, t) →
      parseStep st line =
        ⟨(if st.current_para ≠ [] then
            st.elements ++ [⟨"paragraph", joinNl st.current_para⟩] else st.elements)
          ++ [⟨"heading_" ++ toString k, t⟩], [], false, st.in_list⟩)
    ∧ parse_document_structure "### Title" = [⟨"heading_3", "Title"⟩] := by
  constructor
  · intro st line k t hcode hh
    have hf := headingMatch_not_fence line k t hh
    by_cases hb2 : st.current_para ≠ [] <;> simp [parseStep, hf, hcode, hh, hb2]
  · decide

theorem c3_witness :
    parseStep ⟨[], ["- a"], false, true⟩ "# H"
      = ⟨(if (["- a"] : List String) ≠ [] then
            ([] : List DocElement) ++ [⟨"paragraph", joinNl ["- a"]⟩] else [])
          ++ [⟨"heading_" ++ toString 1, "H"⟩], [], false, true⟩ :=
  c3_heading_step.1 ⟨[], ["- a"], false, true⟩ "# H" 1 "H" rfl (by decide)

/-! ### difflib.SequenceMatcher (isjunk=None, autojunk=True)

`compare_documents` and `get_word_level_diff` delegate to Python's
`difflib`; the parts they call are embedded here, generically in the
element type (characters for the similarity ratio, lines for the unified
diff, words for the word-level diff).  Every call site constructs
`SequenceMatcher(None, a, b)`, so `isjunk` is `None`, the junk set `bjunk`
is empty, and only the autojunk "popular element" rule can prune `b2j`. -/

/-- The ascending list of positions of `v` in `b` (the `b2j` dict entry
before autojunk pruning). -/
def occList {α : Type} [DecidableEq α] (b : List α) (v : α) : List Nat :=
  (List.range b.length).filter (fun j => decide (b.get? j = some v))

/-- The `b2j` mapping of `SequenceMatcher.__chain_b`: all occurrence
positions of `v` in `b`, except that for `len(b) >= 200` a "popular"
element (more than `len(b) // 100 + 1` occurrences) is dropped. -/
def b2jOf {α : Type} [DecidableEq α] (b : List α) (v : α) : List Nat :=
  let occ := occList b v
  if 200 ≤ b.length ∧ b.length / 100 + 1 < occ.length then [] else occ

/-- The all-zero table, modelling an empty `j2len` dict with
`dict.get(key, 0)` lookups. -/
def zeroTab : Nat → Nat := fun _ => 0

/-- `j2len.get(j - 1, 0)` with Python's `-1` key (absent) reading as 0. -/
def j2lenPrev (j2len : Nat → Nat) (j : Nat) : Nat :=
  match j with
  | 0 => 0
  | jj + 1 => j2len jj

/-- The inner `for j in b2j.get(a[i], [])` loop of `find_longest_match`:
`j < blo` is `continue`, `j >= bhi` is `break` (positions are ascending),
otherwise `k = newj2len[j] = j2len.get(j-1, 0) + 1` and the running best
is replaced when `k > bestsize` (Python's `i-k+1`/`j-k+1` are `i+1-k` and
`j+1-k`; `k` never exceeds `i+1`, see `innerLoop_bounds`). -/
def innerLoop (j2len : Nat → Nat) (blo bhi i : Nat) :
    List Nat → (Nat → Nat) → (Nat × Nat × Nat) → ((Nat → Nat) × (Nat × Nat × Nat))
  | [], nj, best => (nj, best)
  | j :: js, nj, best =>
    if j < blo then innerLoop j2len blo bhi i js nj best
    else if bhi ≤ j then (nj, best)
    else
      let k := j2lenPrev j2len j + 1
      let nj' : Nat → Nat := fun x => if x = j then k else nj x
      let best' := if best.2.2 < k then (i + 1 - k, j + 1 - k, k) else best
      innerLoop j2len blo bhi i js nj' best'

/-- One iteration of the outer `for i in range(alo, ahi)` loop: start a
fresh `newj2len` and run the inner loop over the occurrence list of
`a[i]`. -/
def scanRow {α : Type} [DecidableEq α] (a : List α) (b2j : α → List Nat)
    (blo bhi : Nat) (s : (Nat → Nat) × (Nat × Nat × Nat)) (i : Nat) :
    (Nat → Nat) × (Nat × Nat × Nat) :=
  match a.get? i with
  | none => s
  | some ai => innerLoop s.1 blo bhi i (b2j ai) zeroTab s.2

/-- The first post-scan `while` loop of `find_longest_match`: extend the
best block leftwards over equal elements (the junk test is vacuous since
`bjunk` is empty at every call site).  Each step moves `besti` down by
one, so the recursion is structural in `besti`. -/
def extendLeft {α : Type} [DecidableEq α] (a b : List α) (alo blo : Nat) :
    Nat → Nat → Nat → Nat × Nat × Nat
  | 0, bestj, k => (0, bestj, k)
  | besti + 1, bestj, k =>
    if alo < besti + 1 ∧ blo < bestj ∧
        (a.get? besti).isSome ∧ a.get? besti = b.get? (bestj - 1) then
      extendLeft a b alo blo besti (bestj - 1) (k + 1)
    else (besti + 1, bestj, k)

/-- The second post-scan `while` loop: extend the best block rightwards
over equal elements (junk test again vacuous; the two junk extension
loops of CPython never fire with an empty junk set and are omitted).
The first argument is iteration fuel: the guard `besti + k < ahi` fails
after at most `ahi` iterations because `k` strictly increases, so calling
with fuel `ahi` never stops before the guard does. -/
def extendRight {α : Type} [DecidableEq α] (a b : List α) (ahi bhi : Nat) :
    Nat → Nat → Nat → Nat → Nat × Nat × Nat
  | 0, besti, bestj, k => (besti, bestj, k)
  | fuel + 1, besti, bestj, k =>
    if besti + k < ahi ∧ bestj + k < bhi ∧
        (a.get? (besti + k)).isSome ∧ a.get? (besti + k) = b.get? (bestj + k) then
      extendRight a b ahi bhi fuel besti bestj (k + 1)
    else (besti, bestj, k)

/-- `SequenceMatcher.find_longest_match(alo, ahi, blo, bhi)`. -/
def findLongestMatch {α : Type} [DecidableEq α] (a b : List α)
    (b2j : α → List Nat) (alo ahi blo bhi : Nat) : Nat × Nat × Nat :=
  let scan := (List.range' alo (ahi - alo)).foldl (scanRow a b2j blo bhi)
    (zeroTab, (alo, blo, 0))
  let l := extendLeft a b alo blo scan.2.1 scan.2.2.1 scan.2.2.2
  extendRight a b ahi bhi ahi l.1 l.2.1 l.2.2

theorem j2lenPrev_le (j2len : Nat → Nat) (m j : Nat)
    (h : ∀ x, j2len x ≤ m) : j2lenPrev j2len j ≤ m := by
  cases j with
  | zero => simp [j2lenPrev]
  | succ jj => simpa [j2lenPrev] using h jj

theorem innerLoop_bounds (j2len : Nat → Nat) (blo bhi alo m : Nat) (js : List Nat) :
    ∀ (nj : Nat → Nat) (best : Nat × Nat × Nat),
    (∀ x, j2len x ≤ m) → (∀ x, nj x ≤ m + 1) →
    alo ≤ best.1 → best.1 + best.2.2 ≤ alo + m + 1 →
    (∀ x, (innerLoop j2len blo bhi (alo + m) js nj best).1 x ≤ m + 1) ∧
    alo ≤ (innerLoop j2len blo bhi (alo + m) js nj best).2.1 ∧
    (innerLoop j2len blo bhi (alo + m) js nj best).2.1
      + (innerLoop j2len blo bhi (alo + m) js nj best).2.2.2 ≤ alo + m + 1 := by
  induction js with
  | nil =>
    intro nj best hj hn hb1 hb2
    exact ⟨hn, hb1, hb2⟩
  | cons j js ih =>
    intro nj best hj hn hb1 hb2
    have hk : j2lenPrev j2len j ≤ m := j2lenPrev_le j2len m j hj
    by_cases h1 : j < blo
    · simp only [innerLoop, if_pos h1]
      exact ih nj best hj hn hb1 hb2
    · by_cases h2 : bhi ≤ j
      · simp only [innerLoop, if_neg h1, if_pos h2]
        exact ⟨hn, hb1, hb2⟩
      · simp only [innerLoop, if_neg h1, if_neg h2]
        apply ih
        · exact hj
        · intro x
          by_cases hx : x = j
          · simp only [if_pos hx]
            omega
          · simp only [if_neg hx]
            exact hn x
        · by_cases hbk : best.2.2 < j2lenPrev j2len j + 1
          · simp only [if_pos hbk]
            omega
          · simp only [if_neg hbk]
            exact hb1
        · by_cases hbk : best.2.2 < j2lenPrev j2len j + 1
          · simp only [if_pos hbk]
            omega
          · simp only [if_neg hbk]
            exact hb2

theorem scanRow_none {α : Type} [DecidableEq α] (a : List α)
    (b2j : α → List Nat) (blo bhi i : Nat)
    (s : (Nat → Nat) × (Nat × Nat × Nat)) (hget : a.get? i = none) :
    scanRow a b2j blo bhi s i = s := by
  simp only [scanRow, hget]

theorem scanRow_some {α : Type} [DecidableEq α] (a : List α)
    (b2j : α → List Nat) (blo bhi i : Nat) (ai : α)
    (s : (Nat → Nat) × (Nat × Nat × Nat)) (hget : a.get? i = some ai) :
    scanRow a b2j blo bhi s i = innerLoop s.1 blo bhi i (b2j ai) zeroTab s.2 := by
  simp only [scanRow, hget]

theorem scanFold_bounds {α : Type} [DecidableEq α] (a : List α)
    (b2j : α → List Nat) (blo bhi alo : Nat) : ∀ cnt : Nat,
    (∀ x, ((List.range' alo cnt).foldl (scanRow a b2j blo bhi)
        (zeroTab, (alo, blo, 0))).1 x ≤ cnt) ∧
    alo ≤ ((List.range' alo cnt).foldl (scanRow a b2j blo bhi)
        (zeroTab, (alo, blo, 0))).2.1 ∧
    ((List.range' alo cnt).foldl (scanRow a b2j blo bhi)
        (zeroTab, (alo, blo, 0))).2.1
      + ((List.range' alo cnt).foldl (scanRow a b2j blo bhi)
        (zeroTab, (alo, blo, 0))).2.2.2 ≤ alo + cnt := by
  intro cnt
  induction cnt with
  | zero => exact ⟨fun x => by simp [zeroTab], Nat.le_refl alo, by simp⟩
  | succ n ih =>
    have hr : List.range' alo (n + 1) = List.range' alo n ++ [alo + n] := by
      have h0 := List.range'_1_concat alo n
      simpa using h0
    rw [hr, List.foldl_append]
    obtain ⟨ihj, ihb1, ihb2⟩ := ih
    simp only [List.foldl_cons, List.foldl_nil]
    cases hget : a.get? (alo + n) with
    | none =>
      rw [scanRow_none a b2j blo bhi (alo + n) _ hget]
      refine ⟨fun x => Nat.le_succ_of_le (ihj x), ihb1, by omega⟩
    | some ai =>
      rw [scanRow_some a b2j blo bhi (alo + n) ai _ hget]
      have hmain := innerLoop_bounds
        ((List.range' alo n).foldl (scanRow a b2j blo bhi) (zeroTab, (alo, blo, 0))).1
        blo bhi alo n (b2j ai) zeroTab
        ((List.range' alo n).foldl (scanRow a b2j blo bhi) (zeroTab, (alo, blo, 0))).2
        ihj (fun x => by simp [zeroTab]) ihb1 (by omega)
      refine ⟨hmain.1, hmain.2.1, by have h3 := hmain.2.2; omega⟩

/-- A region of the `get_matching_blocks` work queue. -/
structure Region where
  alo : Nat
  ahi : Nat
  blo : Nat
  bhi : Nat
deriving DecidableEq, Repr

def regionSize (r : Region) : Nat := r.ahi - r.alo

def queueMeasure (q : List Region) : Nat := (q.map regionSize).sum

/-- The sub-regions that `get_matching_blocks` pushes after extracting
the block `x` from region `r`: the left remainder (queued first) and the
right remainder (queued second, hence on top of the LIFO stack and listed
first here). -/
def pushRegions (r : Region) (x : Nat × Nat × Nat) : List Region :=
  (if x.1 + x.2.2 < r.ahi ∧ x.2.1 + x.2.2 < r.bhi then
      [⟨x.1 + x.2.2, r.ahi, x.2.1 + x.2.2, r.bhi⟩] else [])
    ++ (if r.alo < x.1 ∧ r.blo < x.2.1 then [⟨r.alo, x.1, r.blo, x.2.1⟩] else [])

/-- The queue loop of `get_matching_blocks`.  Python's `queue.append` /
`queue.pop()` pair is a LIFO stack, modelled with the list head as the
top: the right sub-region is pushed after the left one, hence popped
first.  The first argument is iteration fuel: every iteration strictly
decreases `2 * queueMeasure q + q.length` (a popped region is replaced by
sub-regions whose sizes sum to at least one less when a block was found,
and is simply removed otherwise), so the initial fuel
`2 * queueMeasure q + q.length` is never exhausted before the queue
empties. -/
def mbAux {α : Type} [DecidableEq α] (a b : List α) (b2j : α → List Nat) :
    Nat → List Region → List (Nat × Nat × Nat)
  | 0, _ => []
  | _ + 1, [] => []
  | fuel + 1, r :: rest =>
    let x := findLongestMatch a b b2j r.alo r.ahi r.blo r.bhi
    if x.2.2 = 0 then mbAux a b b2j fuel rest
    else x :: mbAux a b b2j fuel (pushRegions r x ++ rest)

/-- Lexicographic comparison of block triples, as Python tuple order. -/
def blockLe (x y : Nat × Nat × Nat) : Bool :=
  decide (x.1 < y.1) || (decide (x.1 = y.1) && (decide (x.2.1 < y.2.1) ||
    (decide (x.2.1 = y.2.1) && decide (x.2.2 ≤ y.2.2))))

/-- Insertion into a sorted block list. -/
def insertBlock (x : Nat × Nat × Nat) : List (Nat × Nat × Nat) → List (Nat × Nat × Nat)
  | [] => [x]
  | y :: ys => if blockLe x y then x :: y :: ys else y :: insertBlock x ys

/-- Insertion sort, modelling `matching_blocks.sort()` (the collected
blocks come from disjoint regions, so they are pairwise distinct and any
sort produces the same list). -/
def sortBlocks (l : List (Nat × Nat × Nat)) : List (Nat × Nat × Nat) :=
  l.foldr insertBlock []

/-- The second phase of `get_matching_blocks`: merge adjacent blocks into
`non_adjacent`, starting from `i1 = j1 = k1 = 0`. -/
def mergeAdjacent : (Nat × Nat × Nat) → List (Nat × Nat × Nat) → List (Nat × Nat × Nat)
  | (i1, j1, k1), [] => if k1 ≠ 0 then [(i1, j1, k1)] else []
  | (i1, j1, k1), (i2, j2, k2) :: bs =>
    if i1 + k1 = i2 ∧ j1 + k1 = j2 then mergeAdjacent (i1, j1, k1 + k2) bs
    else if k1 ≠ 0 then (i1, j1, k1) :: mergeAdjacent (i2, j2, k2) bs
    else mergeAdjacent (i2, j2, k2) bs

/-- `SequenceMatcher.get_matching_blocks()`: run the queue loop on the
full region, sort, merge adjacent blocks, and append the
`(la, lb, 0)` sentinel. -/
def getMatchingBlocks {α : Type} [DecidableEq α] (a b : List α) : List (Nat × Nat × Nat) :=
  mergeAdjacent (0, 0, 0) (sortBlocks (mbAux a b (b2jOf b)
      (2 * a.length + 1) [⟨0, a.length, 0, b.length⟩]))
    ++ [(a.length, b.length, 0)]

/-- `sum(size for _, _, size in matches)` of `ratio()`. -/
def matchesTotal (blocks : List (Nat × Nat × Nat)) : Nat :=
  (blocks.map (fun x => x.2.2)).sum

/-- `SequenceMatcher.ratio()`: `2.0 * matches / (la + lb)` when the total
length is nonzero, else `1.0` (`_calculate_ratio`).  Exact rational
arithmetic replaces the Python float. -/
def ratioQ {α : Type} [DecidableEq α] (a b : List α) : ℚ :=
  if a.length + b.length ≠ 0 then
    mkRat (2 * matchesTotal (getMatchingBlocks a b)) (a.length + b.length)
  else 1

inductive OpTag where
  | equal
  | replace
  | delete
  | insert
deriving DecidableEq, Repr

/-- One opcode `(tag, i1, i2, j1, j2)` of `get_opcodes`. -/
structure Opcode where
  tag : OpTag
  i1 : Nat
  i2 : Nat
  j1 : Nat
  j2 : Nat
deriving DecidableEq, Repr

/-- The loop of `get_opcodes` over the matching blocks, carrying the
running `(i, j)` cursor. -/
def getOpcodesAux : Nat → Nat → List (Nat × Nat × Nat) → List Opcode
  | _, _, [] => []
  | i, j, (ai, bj, size) :: bs =>
    let tagOps : List Opcode :=
      if i < ai ∧ j < bj then [⟨.replace, i, ai, j, bj⟩]
      else if i < ai then [⟨.delete, i, ai, j, bj⟩]
      else if j < bj then [⟨.insert, i, ai, j, bj⟩]
      else []
    let eqOps : List Opcode :=
      if size ≠ 0 then [⟨.equal, ai, ai + size, bj, bj + size⟩] else []
    tagOps ++ eqOps ++ getOpcodesAux (ai + size) (bj + size) bs

/-- `SequenceMatcher.get_opcodes()`. -/
def getOpcodes {α : Type} [DecidableEq α] (a b : List α) : List Opcode :=
  getOpcodesAux 0 0 (getMatchingBlocks a b)

/-- The leading-group fixup of `get_grouped_opcodes`: trim a leading
`equal` opcode to at most `nctx` context lines. -/
def fixHead (nctx : Nat) : List Opcode → List Opcode
  | [] => []
  | c :: rest =>
    if c.tag = .equal then
      ⟨c.tag, max c.i1 (c.i2 - nctx), c.i2, max c.j1 (c.j2 - nctx), c.j2⟩ :: rest
    else c :: rest

/-- The trailing-group fixup of `get_grouped_opcodes`. -/
def fixLast (nctx : Nat) (codes : List Opcode) : List Opcode :=
  match codes.getLast? with
  | none => []
  | some c =>
    if c.tag = .equal then
      codes.dropLast ++ [⟨c.tag, c.i1, min c.i2 (c.i1 + nctx), c.j1, min c.j2 (c.j1 + nctx)⟩]
    else codes

/-- The grouping loop of `get_grouped_opcodes`: a long `equal` stretch
(over `2 * nctx`) closes the current group (trimmed to `nctx` of context)
and opens the next; at the end the final group is yielded unless it is a
single `equal` opcode. -/
def groupLoop (nctx : Nat) : List Opcode → List Opcode → List (List Opcode)
  | [], group =>
    if group ≠ [] ∧ ¬ (group.length = 1 ∧ (group.headD ⟨.equal, 0, 0, 0, 0⟩).tag = .equal)
    then [group] else []
  | c :: cs, group =>
    if c.tag = .equal ∧ 2 * nctx < c.i2 - c.i1 then
      (group ++ [⟨c.tag, c.i1, min c.i2 (c.i1 + nctx), c.j1, min c.j2 (c.j1 + nctx)⟩])
        :: groupLoop nctx cs [⟨c.tag, max c.i1 (c.i2 - nctx), c.i2, max c.j1 (c.j2 - nctx), c.j2⟩]
    else groupLoop nctx cs (group ++ [c])

/-- `SequenceMatcher.get_grouped_opcodes(n)`: empty opcode lists become a
single dummy `equal`, the leading and trailing `equal` opcodes are
trimmed to the context window, and the loop forms the groups. -/
def getGroupedOpcodes {α : Type} [DecidableEq α] (a b : List α) (nctx : Nat) :
    List (List Opcode) :=
  let codes0 := getOpcodes a b
  let codes1 := if codes0 = [] then [⟨.equal, 0, 1, 0, 1⟩] else codes0
  groupLoop nctx (fixLast nctx (fixHead nctx codes1)) []

/-- `difflib._format_range_unified`. -/
def formatRangeUnified (start stop : Nat) : String :=
  let beginning := start + 1
  let length := stop - start
  if length = 1 then toString beginning
  else toString (if length = 0 then beginning - 1 else beginning) ++ "," ++ toString length

/-- The per-opcode lines of a unified-diff group: context lines prefixed
by a space, deletions by `-`, insertions by `+` (with `lineterm=''`). -/
def opLines (a b : List String) (c : Opcode) : List String :=
  match c.tag with
  | .equal => ((a.drop c.i1).take (c.i2 - c.i1)).map (fun l => " " ++ l)
  | .replace =>
    ((a.drop c.i1).take (c.i2 - c.i1)).map (fun l => "-" ++ l)
      ++ ((b.drop c.j1).take (c.j2 - c.j1)).map (fun l => "+" ++ l)
  | .delete => ((a.drop c.i1).take (c.i2 - c.i1)).map (fun l => "-" ++ l)
  | .insert => ((b.drop c.j1).take (c.j2 - c.j1)).map (fun l => "+" ++ l)

/-- One group's hunk header followed by its lines. -/
def groupLines (a b : List String) (g : List Opcode) : List String :=
  let first := g.headD ⟨.equal, 0, 0, 0, 0⟩
  let last := g.getLastD ⟨.equal, 0, 0, 0, 0⟩
  ("@@ -" ++ formatRangeUnified first.i1 last.i2 ++ " +"
      ++ formatRangeUnified first.j1 last.j2 ++ " @@")
    :: (g.map (opLines a b)).flatten

/-- `difflib.unified_diff(a, b, fromfile, tofile, lineterm='')` as called
by `compare_documents`: the `---`/`+++` file headers are produced once
before the first group (the `started` flag), with empty file dates. -/
def unifiedDiff (a b : List String) (fromfile tofile : String) (nctx : Nat) :
    List String :=
  match getGroupedOpcodes a b nctx with
  | [] => []
  | groups => ("--- " ++ fromfile) :: ("+++ " ++ tofile)
      :: (groups.map (groupLines a b)).flatten

/-! ### The comparison service (document_compare.py) -/

/-- The `ChangeType` enum. -/
inductive ChangeType where
  | added
  | removed
  | changed
  | unchanged
deriving DecidableEq, Repr

/-- The `TextDiff` dataclass. -/
structure TextDiff where
  type : ChangeType
  line_number : Int
  content : String
  old_content : Option String := none
deriving DecidableEq, Repr

/-- The `ComparisonResult` dataclass. -/
structure ComparisonResult where
  doc1_name : String
  doc2_name : String
  similarity_percent : ℚ
  total_lines_doc1 : Nat
  total_lines_doc2 : Nat
  added_lines : Nat
  removed_lines : Nat
  changed_lines : Nat
  diffs : List TextDiff
  summary : String
deriving DecidableEq, Repr

/-- The mutable loop state of `compare_documents`' diff loop: `diffs`,
`added`, `removed`, `changed` (never incremented) and `line_num`. -/
structure DiffLoopState where
  diffs : List TextDiff
  added : Nat
  removed : Nat
  changed : Nat
  line_num : Int
deriving DecidableEq, Repr

/-- The hunk-header number parse
`int(line.split(' ')[2].split(',')[0].replace('+', ''))`, with `none`
playing the role of the swallowed `except: pass`. -/
def parseDestStart (line : String) : Option Int :=
  match (pySplitOnChar ' ' line).get? 2 with
  | none => none
  | some p2 =>
    let c0 := ((pySplitOnChar ',' p2).headD "")
    pyInt (String.mk (c0.data.filter (fun c => decide (c ≠ '+'))))

/-- One iteration of `compare_documents`' `for line in differ` loop, in
the source's branch order: `@@` headers (reset `line_num` when the parse
succeeds, else `pass`), `---`/`+++` file headers (skipped), `-` lines
(removed, counter NOT advanced), `+` lines (added, counter advanced),
anything else (counter advanced). -/
def diffLoopStep (st : DiffLoopState) (line : String) : DiffLoopState :=
  if pyStartsWith line "@@" then
    match parseDestStart line with
    | some n => { st with line_num := n }
    | none => st
  else if pyStartsWith line "---" ∨ pyStartsWith line "+++" then st
  else if pyStartsWith line "-" then
    { st with diffs := st.diffs ++ [⟨.removed, st.line_num, pyDropFirst line, none⟩],
              removed := st.removed + 1 }
  else if pyStartsWith line "+" then
    { st with diffs := st.diffs ++ [⟨.added, st.line_num, pyDropFirst line, none⟩],
              added := st.added + 1, line_num := st.line_num + 1 }
  else { st with line_num := st.line_num + 1 }

/-- `SequenceMatcher(None, text1, text2).ratio() * 100`, written as one
`mkRat` (ℚ multiplication is kernel-opaque; `simQ_eq_ratio` relates this
to `ratioQ`). -/
def simQ (text1 text2 : String) : ℚ :=
  if text1.data.length + text2.data.length ≠ 0 then
    mkRat (200 * matchesTotal (getMatchingBlocks text1.data text2.data))
      (text1.data.length + text2.data.length)
  else 100

/-- The similarity-banded sentence of `compare_documents`' summary. -/
def bandOf (similarity : ℚ) : String :=
  if 95 < similarity then "Documents are nearly identical."
  else if 80 < similarity then "Documents are similar with minor differences."
  else if 50 < similarity then "Documents have moderate differences."
  else "Documents are substantially different."

/-- `round(x, 2)` as `floor(100 x + 1/2) / 100` in exact arithmetic.
(Python rounds the nearest double with ties-to-even; the two differ only
at exact half-cent ties or by one ulp, neither of which any claim settled
here depends on.) -/
def pyRound2 (q : ℚ) : ℚ :=
  mkRat (mkRat (200 * q.num + q.den) (2 * q.den)).floor 100

/-- `compare_documents(text1, text2, doc1_name, doc2_name, context_lines)`
from src/backend/app/services/document_compare.py. -/
def compare_documents (text1 text2 : String)
    (doc1_name : String := "Document 1") (doc2_name : String := "Document 2")
    (context_lines : Nat := 3) : ComparisonResult :=
  let lines1 := pySplitlines text1
  let lines2 := pySplitlines text2
  let similarity := simQ text1 text2
  let diffLines := unifiedDiff lines1 lines2 doc1_name doc2_name context_lines
  let st := diffLines.foldl diffLoopStep ⟨[], 0, 0, 0, 0⟩
  let summary := bandOf similarity ++ " " ++ toString st.added ++ " lines added, "
      ++ toString st.removed ++ " lines removed."
  ⟨doc1_name, doc2_name, pyRound2 similarity, lines1.length, lines2.length,
    st.added, st.removed, st.changed, st.diffs, summary⟩

/-- One word-level change record of `get_word_level_diff` (the dict's
`"type"` key is the constructor). -/
inductive WordChange where
  | changed (old : String) (new : String) (position : Nat)
  | removed (content : String) (position : Nat)
  | added (content : String) (position : Nat)
deriving DecidableEq, Repr

/-- `get_word_level_diff(text1, text2)`: whitespace-tokenize both texts,
then walk the opcodes appending one record per non-equal opcode. -/
def get_word_level_diff (text1 text2 : String) : List WordChange :=
  let words1 := pySplitWs text1
  let words2 := pySplitWs text2
  (getOpcodes words1 words2).foldl (fun changes c =>
    match c.tag with
    | .equal => changes
    | .replace => changes ++ [.changed (joinSp ((words1.drop c.i1).take (c.i2 - c.i1)))
        (joinSp ((words2.drop c.j1).take (c.j2 - c.j1))) c.i1]
    | .delete => changes ++ [.removed (joinSp ((words1.drop c.i1).take (c.i2 - c.i1))) c.i1]
    | .insert => changes ++ [.added (joinSp ((words2.drop c.j1).take (c.j2 - c.j1))) c.j1]) []

/-! ### The matcher on two equal sequences (for claims C7, C8 and C10)

On `SequenceMatcher(None, x, x)` the scan of `find_longest_match` only
ever moves the running best between diagonal blocks, after which the two
extension loops grow the block to the whole sequence. -/

/-- Whether the scan can chain through cell `(i, j)` of the
self-comparison: both positions exist, hold equal elements, and the
element survives autojunk. -/
def goodAt {α : Type} [DecidableEq α] (x : List α) (i j : Nat) : Bool :=
  match x.get? i, x.get? j with
  | some u, some v => decide (u = v) && decide (b2jOf x u ≠ [])
  | _, _ => false

/-- The `j2len` chain value at cell `(i, j)` of the self-comparison
scan: the length of the longest run of good cells ending at `(i, j)` on
its diagonal. -/
def chainC {α : Type} [DecidableEq α] (x : List α) : Nat → Nat → Nat
  | 0, j => if goodAt x 0 j then 1 else 0
  | i + 1, 0 => if goodAt x (i + 1) 0 then 1 else 0
  | i + 1, j + 1 => if goodAt x (i + 1) (j + 1) then chainC x i j + 1 else 0

theorem goodAt_iff {α : Type} [DecidableEq α] (x : List α) (i j : Nat) :
    goodAt x i j = true ↔
      ∃ u, x.get? i = some u ∧ x.get? j = some u ∧ b2jOf x u ≠ [] := by
  simp only [goodAt]
  cases hi : x.get? i <;> cases hj : x.get? j <;> simp
  exact fun _ => eq_comm

theorem goodAt_symm {α : Type} [DecidableEq α] (x : List α) (i j : Nat) :
    goodAt x i j = goodAt x j i := by
  by_cases h : goodAt x i j = true
  · obtain ⟨u, h1, h2, h3⟩ := (goodAt_iff x i j).mp h
    rw [h, ((goodAt_iff x j i).mpr ⟨u, h2, h1, h3⟩)]
  · by_cases h' : goodAt x j i = true
    · obtain ⟨u, h1, h2, h3⟩ := (goodAt_iff x j i).mp h'
      exact absurd ((goodAt_iff x i j).mpr ⟨u, h2, h1, h3⟩) h
    · simp [Bool.not_eq_true] at h h'
      rw [h, h']

theorem goodAt_diag_left {α : Type} [DecidableEq α] (x : List α) (i j : Nat)
    (h : goodAt x i j = true) : goodAt x i i = true := by
  obtain ⟨u, h1, _, h3⟩ := (goodAt_iff x i j).mp h
  exact (goodAt_iff x i i).mpr ⟨u, h1, h1, h3⟩

theorem goodAt_diag_right {α : Type} [DecidableEq α] (x : List α) (i j : Nat)
    (h : goodAt x i j = true) : goodAt x j j = true :=
  goodAt_diag_left x j i (goodAt_symm x i j ▸ h)

theorem chainC_le_diag_left {α : Type} [DecidableEq α] (x : List α) :
    ∀ i j, chainC x i j ≤ chainC x i i := by
  intro i
  induction i with
  | zero =>
    intro j
    simp only [chainC]
    by_cases h : goodAt x 0 j = true
    · simp [h, goodAt_diag_left x 0 j h]
    · simp [h]
  | succ i ih =>
    intro j
    cases j with
    | zero =>
      simp only [chainC]
      by_cases h : goodAt x (i + 1) 0 = true
      · simp [h, goodAt_diag_left x (i + 1) 0 h]
      · simp [h]
    | succ j =>
      simp only [chainC]
      by_cases h : goodAt x (i + 1) (j + 1) = true
      · simp [h, goodAt_diag_left x (i + 1) (j + 1) h]
        exact ih j
      · simp [h]

theorem chainC_symm {α : Type} [DecidableEq α] (x : List α) :
    ∀ i j, chainC x i j = chainC x j i := by
  intro i
  induction i with
  | zero =>
    intro j
    cases j with
    | zero => rfl
    | succ j => simp only [chainC, goodAt_symm x 0 (j + 1)]
  | succ i ih =>
    intro j
    cases j with
    | zero => simp only [chainC, goodAt_symm x (i + 1) 0]
    | succ j => simp only [chainC, goodAt_symm x (i + 1) (j + 1), ih j]

theorem chainC_le_diag_right {α : Type} [DecidableEq α] (x : List α) (i j : Nat) :
    chainC x i j ≤ chainC x j j := by
  rw [chainC_symm]
  exact chainC_le_diag_left x j i

theorem chainC_zero_of_not_good {α : Type} [DecidableEq α] (x : List α)
    (i j : Nat) (h : goodAt x i j = false) : chainC x i j = 0 := by
  cases i <;> cases j <;> simp [chainC, h]

theorem chainC_le_succ {α : Type} [DecidableEq α] (x : List α) :
    ∀ i j, chainC x i j ≤ i + 1 := by
  intro i
  induction i with
  | zero =>
    intro j
    simp only [chainC]
    split <;> omega
  | succ i ih =>
    intro j
    cases j with
    | zero =>
      simp only [chainC]
      split <;> omega
    | succ j =>
      simp only [chainC]
      split
      · have := ih j
        omega
      · omega

theorem mem_occList {α : Type} [DecidableEq α] (x : List α) (v : α) (j : Nat) :
    j ∈ occList x v ↔ x.get? j = some v := by
  simp only [occList, List.mem_filter, List.mem_range, decide_eq_true_eq]
  constructor
  · exact fun h => h.2
  · intro h
    exact ⟨(List.get?_eq_some.mp h).1, h⟩

theorem occList_pairwise {α : Type} [DecidableEq α] (x : List α) (v : α) :
    (occList x v).Pairwise (· < ·) :=
  (List.pairwise_lt_range _).filter _

theorem b2jOf_cases {α : Type} [DecidableEq α] (x : List α) (v : α) :
    b2jOf x v = [] ∨ b2jOf x v = occList x v := by
  by_cases h : 200 ≤ x.length ∧ x.length / 100 + 1 < (occList x v).length
  · exact Or.inl (by simp [b2jOf, h])
  · exact Or.inr (by simp [b2jOf, h])

theorem b2jOf_pairwise {α : Type} [DecidableEq α] (x : List α) (v : α) :
    (b2jOf x v).Pairwise (· < ·) := by
  rcases b2jOf_cases x v with h | h <;> rw [h]
  · exact List.Pairwise.nil
  · exact occList_pairwise x v

theorem mem_b2jOf_good {α : Type} [DecidableEq α] (x : List α) (r : Nat) (u : α)
    (hr : x.get? r = some u) (j : Nat) :
    j ∈ b2jOf x u ↔ goodAt x r j = true := by
  constructor
  · intro hj
    have hne : b2jOf x u ≠ [] := List.ne_nil_of_mem hj
    rcases b2jOf_cases x u with h | h
    · exact absurd h hne
    · rw [h] at hj
      exact (goodAt_iff x r j).mpr ⟨u, hr, (mem_occList x u j).mp hj, hne⟩
  · intro hg
    obtain ⟨u', h1, h2, h3⟩ := (goodAt_iff x r j).mp hg
    rw [hr] at h1
    cases h1
    rcases b2jOf_cases x u with h | h
    · exact absurd h h3
    · rw [h]
      exact (mem_occList x u j).mpr h2

/-- The row of `j2len` values available when the scan reaches row `r`:
all zeros for row 0, the previous row of the chain otherwise. -/
def prevRow {α : Type} [DecidableEq α] (x : List α) : Nat → Nat → Nat
  | 0 => zeroTab
  | r + 1 => chainC x r

theorem chainC_of_good {α : Type} [DecidableEq α] (x : List α) (r j : Nat)
    (h : goodAt x r j = true) :
    chainC x r j = j2lenPrev (prevRow x r) j + 1 := by
  cases r <;> cases j <;> simp [chainC, h, j2lenPrev, prevRow, zeroTab]

/-- Running the inner loop of the self-comparison over positions that all
chain through row `r` keeps the running best on the diagonal, and returns
the `j2len` row updated with the chain values. -/
theorem innerLoop_diag {α : Type} [DecidableEq α] (x : List α) (n r : Nat)
    (js : List Nat) :
    ∀ (nj : Nat → Nat) (d s : Nat),
    (∀ j ∈ js, j < n ∧ goodAt x r j = true) →
    js.Pairwise (· < ·) →
    (∀ j ∈ js, j < r → chainC x r j ≤ s) →
    (r ∈ js ∨ chainC x r r ≤ s) →
    ∃ d' s',
      innerLoop (prevRow x r) 0 n r js nj (d, d, s)
        = ((fun j => if j ∈ js then chainC x r j else nj j), (d', d', s'))
      ∧ s ≤ s' ∧ chainC x r r ≤ s' ∧ d' + s' ≤ max (d + s) (r + 1) := by
  induction js with
  | nil =>
    intro nj d s _ _ _ h4
    have hf : (fun j => if j ∈ ([] : List Nat) then chainC x r j else nj j) = nj := by
      funext j
      simp
    refine ⟨d, s, by simp [innerLoop, hf], le_refl s, ?_, le_max_left _ _⟩
    rcases h4 with h | h
    · simp at h
    · exact h
  | cons j js' ih =>
    intro nj d s h1 h2 h3 h4
    obtain ⟨hjn, hjg⟩ := h1 j (List.mem_cons_self j js')
    have hk : j2lenPrev (prevRow x r) j + 1 = chainC x r j :=
      (chainC_of_good x r j hjg).symm
    have hpw : ∀ j' ∈ js', j < j' := fun j' hj' => (List.pairwise_cons.mp h2).1 j' hj'
    have h2' : js'.Pairwise (· < ·) := (List.pairwise_cons.mp h2).2
    have h1' : ∀ j' ∈ js', j' < n ∧ goodAt x r j' = true :=
      fun j' hj' => h1 j' (List.mem_cons_of_mem j hj')
    have hstep : innerLoop (prevRow x r) 0 n r (j :: js') nj (d, d, s)
        = innerLoop (prevRow x r) 0 n r js'
            (fun y => if y = j then chainC x r j else nj y)
            (if s < chainC x r j
              then (r + 1 - chainC x r j, j + 1 - chainC x r j, chainC x r j)
              else (d, d, s)) := by
      simp only [innerLoop, Nat.not_lt_zero, if_false, Nat.not_le.mpr hjn,
        if_neg (Nat.not_le.mpr hjn), hk]
    by_cases hjr : j = r
    · subst hjr
      -- the diagonal cell: the best may move, but stays diagonal
      by_cases hup : s < chainC x j j
      · have hcle : chainC x j j ≤ j + 1 := chainC_le_succ x j j
        have h3' : ∀ j' ∈ js', j' < j → chainC x j j' ≤ chainC x j j :=
          fun j' hj' _ => absurd (hpw j' hj') (by omega)
        have h4' : j ∈ js' ∨ chainC x j j ≤ chainC x j j := Or.inr (le_refl _)
        obtain ⟨d', s', heq, hss', hcrr', hb⟩ :=
          ih (fun y => if y = j then chainC x j j else nj y)
            (j + 1 - chainC x j j) (chainC x j j)
            h1' h2' (fun j' hj' hlt => absurd (hpw j' hj') (by omega)) h4'
        refine ⟨d', s', ?_, by omega, hcrr', by omega⟩
        rw [hstep, if_pos hup, heq]
        congr 1
        funext y
        by_cases hy : y ∈ js'
        · simp [hy, List.mem_cons_of_mem]
        · by_cases hyj : y = j
          · subst hyj
            simp [hy]
          · simp [hy, hyj]
      · obtain ⟨d', s', heq, hss', hcrr', hb⟩ :=
          ih (fun y => if y = j then chainC x j j else nj y) d s
            h1' h2' (fun j' hj' hlt => absurd (hpw j' hj') (by omega))
            (Or.inr (Nat.not_lt.mp hup))
        refine ⟨d', s', ?_, hss', hcrr', by omega⟩
        rw [hstep, if_neg hup, heq]
        congr 1
        funext y
        by_cases hy : y ∈ js'
        · simp [hy, List.mem_cons_of_mem]
        · by_cases hyj : y = j
          · subst hyj
            simp [hy]
          · simp [hy, hyj]
    · -- off-diagonal cell: the chain value never beats the running best
      have hnole : chainC x r j ≤ s := by
        by_cases hlt : j < r
        · exact h3 j (List.mem_cons_self j js') hlt
        · have hgt : r < j := by omega
          have hrr : chainC x r r ≤ s := by
            rcases h4 with h | h
            · rcases List.mem_cons.mp h with h | h
              · exact absurd h.symm hjr
              · exact absurd (hpw r h) (by omega)
            · exact h
          exact le_trans (chainC_le_diag_left x r j) hrr
      have h4' : r ∈ js' ∨ chainC x r r ≤ s := by
        rcases h4 with h | h
        · rcases List.mem_cons.mp h with h | h
          · exact absurd h.symm hjr
          · exact Or.inl h
        · exact Or.inr h
      obtain ⟨d', s', heq, hss', hcrr', hb⟩ :=
        ih (fun y => if y = j then chainC x r j else nj y) d s
          h1' h2' (fun j' hj' hlt => h3 j' (List.mem_cons_of_mem j hj') hlt) h4'
      refine ⟨d', s', ?_, hss', hcrr', hb⟩
      rw [hstep, if_neg (Nat.not_lt.mpr hnole), heq]
      congr 1
      funext y
      by_cases hy : y ∈ js'
      · simp [hy, List.mem_cons_of_mem]
      · by_cases hyj : y = j
        · subst hyj
          simp [hy]
        · simp [hy, hyj]

/-- The full scan of the self-comparison: after `m` rows the `j2len`
table is row `m` of the chain, and the best block is diagonal with size
dominating every diagonal chain value seen so far. -/
theorem scanFold_diag {α : Type} [DecidableEq α] (x : List α) :
    ∀ m, m ≤ x.length →
    ∃ d s,
      (List.range' 0 m).foldl (scanRow x (b2jOf x) 0 x.length) (zeroTab, (0, 0, 0))
        = (prevRow x m, (d, d, s))
      ∧ (∀ j, j < m → chainC x j j ≤ s) ∧ d + s ≤ m := by
  intro m
  induction m with
  | zero =>
    intro _
    exact ⟨0, 0, rfl, by omega, by omega⟩
  | succ m ih =>
    intro hm
    obtain ⟨d, s, heq, hdiag, hds⟩ := ih (by omega)
    have hr : List.range' 0 (m + 1) = List.range' 0 m ++ [m] := by
      have h0 := List.range'_1_concat 0 m
      simpa using h0
    rw [hr, List.foldl_append, heq]
    simp only [List.foldl_cons, List.foldl_nil]
    have hmlt : m < x.length := by omega
    obtain ⟨u, hu⟩ : ∃ u, x.get? m = some u := by
      cases hget : x.get? m with
      | none =>
        exact absurd (List.get?_eq_none.mp hget) (by omega)
      | some u => exact ⟨u, rfl⟩
    rw [scanRow_some x (b2jOf x) 0 x.length m u _ hu]
    have h1 : ∀ j ∈ b2jOf x u, j < x.length ∧ goodAt x m j = true := by
      intro j hj
      have hg : goodAt x m j = true := (mem_b2jOf_good x m u hu j).mp hj
      obtain ⟨u', hj1, hj2, _⟩ := (goodAt_iff x m j).mp hg
      exact ⟨(List.get?_eq_some.mp hj2).1, hg⟩
    have h3 : ∀ j ∈ b2jOf x u, j < m → chainC x m j ≤ s := by
      intro j _ hjm
      exact le_trans (chainC_le_diag_right x m j) (hdiag j hjm)
    have h4 : m ∈ b2jOf x u ∨ chainC x m m ≤ s := by
      by_cases hg : goodAt x m m = true
      · exact Or.inl ((mem_b2jOf_good x m u hu m).mpr hg)
      · have : chainC x m m = 0 :=
          chainC_zero_of_not_good x m m (Bool.not_eq_true _ ▸ hg)
        omega
    obtain ⟨d', s', hloop, hss', hcrr', hb⟩ :=
      innerLoop_diag x x.length m (b2jOf x u) zeroTab d s h1 (b2jOf_pairwise x u) h3 h4
    refine ⟨d', s', ?_, ?_, by omega⟩
    · rw [hloop]
      congr 1
      funext y
      by_cases hy : y ∈ b2jOf x u
      · simp only [hy, if_pos, prevRow]
      · have hg : goodAt x m y = false := by
          by_cases hgy : goodAt x m y = true
          · exact absurd ((mem_b2jOf_good x m u hu y).mpr hgy) hy
          · exact Bool.not_eq_true _ ▸ hgy
        simp only [hy, if_neg, prevRow, zeroTab]
        exact (chainC_zero_of_not_good x m y hg).symm
    · intro j hj
      by_cases hjm : j < m
      · exact le_trans (hdiag j hjm) hss'
      · have : j = m := by omega
        subst this
        exact hcrr'
theorem extendLeft_diag {α : Type} [DecidableEq α] (x : List α) :
    ∀ d s, d + s ≤ x.length → extendLeft x x 0 0 d d s = (0, 0, d + s) := by
  intro d
  induction d with
  | zero =>
    intro s _
    simp [extendLeft]
  | succ d ih =>
    intro s hds
    have hd : d < x.length := by omega
    obtain ⟨u, hu⟩ : ∃ u, x.get? d = some u := by
      cases hget : x.get? d with
      | none => exact absurd (List.get?_eq_none.mp hget) (by omega)
      | some u => exact ⟨u, rfl⟩
    simp only [extendLeft]
    rw [if_pos ⟨by omega, by omega, by rw [hu]; rfl, by simp⟩]
    have h1 : d + 1 - 1 = d := rfl
    rw [h1, ih (s + 1) (by omega)]
    have h2 : d + (s + 1) = d + 1 + s := by omega
    rw [h2]

theorem extendRight_diag {α : Type} [DecidableEq α] (x : List α) :
    ∀ fuel t, x.length ≤ t + fuel → t ≤ x.length →
    extendRight x x x.length x.length fuel 0 0 t = (0, 0, x.length) := by
  intro fuel
  induction fuel with
  | zero =>
    intro t h1 h2
    have : t = x.length := by omega
    subst this
    simp [extendRight]
  | succ fuel ih =>
    intro t h1 h2
    by_cases ht : t < x.length
    · obtain ⟨u, hu⟩ : ∃ u, x.get? t = some u := by
        cases hget : x.get? t with
        | none => exact absurd (List.get?_eq_none.mp hget) (by omega)
        | some u => exact ⟨u, rfl⟩
      simp only [extendRight]
      rw [if_pos (by rw [Nat.zero_add, hu]; exact ⟨by omega, by omega, by simp, by trivial⟩)]
      exact ih (t + 1) (by omega) (by omega)
    · have : t = x.length := by omega
      subst this
      simp only [extendRight]
      rw [if_neg (by omega)]

/-- On a self-comparison the full-range `find_longest_match` returns the
whole sequence as one block. -/
theorem flm_diag {α : Type} [DecidableEq α] (x : List α) :
    findLongestMatch x x (b2jOf x) 0 x.length 0 x.length = (0, 0, x.length) := by
  obtain ⟨d, s, heq, _, hds⟩ := scanFold_diag x x.length (le_refl _)
  simp only [findLongestMatch, Nat.sub_zero]
  rw [heq]
  rw [extendLeft_diag x d s hds]
  exact extendRight_diag x x.length (d + s) (by omega) hds

theorem mbAux_nil {α : Type} [DecidableEq α] (a b : List α) (b2j : α → List Nat) :
    ∀ fuel, mbAux a b b2j fuel [] = []
  | 0 => rfl
  | _ + 1 => rfl

/-- `get_matching_blocks` of a self-comparison: the whole sequence as one
block (absent when empty), then the sentinel. -/
theorem getMatchingBlocks_self {α : Type} [DecidableEq α] (x : List α) :
    getMatchingBlocks x x
      = (if x.length = 0 then [] else [(0, 0, x.length)])
          ++ [(x.length, x.length, 0)] := by
  unfold getMatchingBlocks
  have hflm := flm_diag x
  by_cases hlen : x.length = 0
  · rw [hlen] at hflm ⊢
    simp [mbAux, hflm, mbAux_nil, sortBlocks, mergeAdjacent]
  · have hpush : pushRegions ⟨0, x.length, 0, x.length⟩ (0, 0, x.length) = [] := by
      simp [pushRegions]
    simp only [mbAux, hflm]
    rw [if_neg hlen, hpush]
    simp only [List.nil_append, mbAux_nil]
    simp only [sortBlocks, List.foldr_cons, List.foldr_nil, insertBlock]
    simp only [mergeAdjacent]
    rw [if_pos (by simp)]
    simp only [mergeAdjacent, Nat.zero_add]
    rw [if_pos hlen, if_neg hlen]

theorem matchesTotal_self {α : Type} [DecidableEq α] (x : List α) :
    matchesTotal (getMatchingBlocks x x) = x.length := by
  rw [getMatchingBlocks_self]
  by_cases hlen : x.length = 0
  · simp [hlen, matchesTotal]
  · simp [hlen, matchesTotal]
theorem ratioQ_self {α : Type} [DecidableEq α] (x : List α) : ratioQ x x = 1 := by
  unfold ratioQ
  rw [matchesTotal_self]
  by_cases hlen : x.length = 0
  · rw [if_neg (by omega)]
  · rw [if_pos (by omega), Rat.mkRat_eq_div]
    have h2 : ((x.length + x.length : ℕ) : ℚ) ≠ 0 := by
      exact_mod_cast (by omega : (x.length + x.length : ℕ) ≠ 0)
    push_cast
    push_cast at h2
    field_simp
    ring

theorem getOpcodes_self {α : Type} [DecidableEq α] (x : List α) :
    getOpcodes x x
      = if x.length = 0 then []
        else [⟨.equal, 0, x.length, 0, x.length⟩] := by
  unfold getOpcodes
  rw [getMatchingBlocks_self]
  by_cases hlen : x.length = 0
  · simp [hlen, getOpcodesAux]
  · rw [if_neg hlen, if_neg hlen]
    simp only [List.cons_append, List.nil_append, getOpcodesAux]
    rw [if_neg (by omega), if_neg (by omega), if_neg (by omega), if_pos hlen]
    rw [if_neg (by omega), if_neg (by omega), if_neg (by omega), if_neg (by omega)]
    simp [Nat.zero_add]

/-- A single `equal` opcode never produces a group: after the head and
tail context trims its span is at most `nctx`, so the grouping loop ends
with a lone `equal` group, which is dropped. -/
theorem grouped_single_equal (nctx a1 a2 : Nat) :
    groupLoop nctx (fixLast nctx (fixHead nctx [⟨.equal, a1, a2, a1, a2⟩])) [] = [] := by
  rw [show fixHead nctx [(⟨.equal, a1, a2, a1, a2⟩ : Opcode)]
      = [⟨.equal, max a1 (a2 - nctx), a2, max a1 (a2 - nctx), a2⟩] from rfl]
  rw [show fixLast nctx [(⟨.equal, max a1 (a2 - nctx), a2, max a1 (a2 - nctx), a2⟩ : Opcode)]
      = [⟨.equal, max a1 (a2 - nctx), min a2 (max a1 (a2 - nctx) + nctx),
          max a1 (a2 - nctx), min a2 (max a1 (a2 - nctx) + nctx)⟩] from rfl]
  simp only [groupLoop]
  rw [if_neg ?hc]
  · simp [groupLoop]
  case hc =>
    intro hcon
    have h2 := hcon.2
    omega

theorem getGroupedOpcodes_self {α : Type} [DecidableEq α] (x : List α) (nctx : Nat) :
    getGroupedOpcodes x x nctx = [] := by
  simp only [getGroupedOpcodes]
  rw [getOpcodes_self]
  by_cases hlen : x.length = 0
  · rw [if_pos hlen, if_pos rfl]
    exact grouped_single_equal nctx 0 1
  · rw [if_neg hlen, if_neg (by simp)]
    exact grouped_single_equal nctx 0 x.length

theorem unifiedDiff_self (l : List String) (n1 n2 : String) (nctx : Nat) :
    unifiedDiff l l n1 n2 nctx = [] := by
  unfold unifiedDiff
  rw [getGroupedOpcodes_self]

/-- `get_matching_blocks` with an empty first sequence is just the
sentinel. -/
theorem getMatchingBlocks_nil_left {α : Type} [DecidableEq α] (w : List α) :
    getMatchingBlocks ([] : List α) w = [(0, w.length, 0)] := rfl

theorem b2jOf_nil {α : Type} [DecidableEq α] (v : α) :
    b2jOf ([] : List α) v = [] := rfl

theorem scanRow_nil_right {α : Type} [DecidableEq α] (w : List α) (i : Nat) :
    scanRow w (b2jOf ([] : List α)) 0 0 (zeroTab, (0, 0, 0)) i
      = (zeroTab, (0, 0, 0)) := by
  unfold scanRow
  cases hget : w.get? i with
  | none => rfl
  | some ai => rfl

theorem getMatchingBlocks_nil_right {α : Type} [DecidableEq α] (w : List α) :
    getMatchingBlocks w ([] : List α) = [(w.length, 0, 0)] := by
  unfold getMatchingBlocks
  have hscan : ∀ rows : List Nat,
      rows.foldl (scanRow w (b2jOf ([] : List α)) 0 0) (zeroTab, (0, 0, 0))
        = (zeroTab, (0, 0, 0)) := by
    intro rows
    induction rows with
    | nil => rfl
    | cons r rest ih =>
      rw [List.foldl_cons, scanRow_nil_right w r, ih]
  have hright : ∀ fuel, extendRight w ([] : List α) w.length 0 fuel 0 0 0 = (0, 0, 0) := by
    intro fuel
    cases fuel with
    | zero => rfl
    | succ fuel =>
      unfold extendRight
      rw [if_neg (by intro hcon; exact absurd hcon.2.1 (by omega))]
  have hflm : findLongestMatch w ([] : List α) (b2jOf ([] : List α)) 0 w.length
      0 ([] : List α).length = (0, 0, 0) := by
    simp only [findLongestMatch, Nat.sub_zero, List.length_nil]
    rw [hscan]
    exact hright w.length
  simp only [mbAux, hflm]
  rw [if_pos trivial, mbAux_nil]
  rfl

theorem matchesTotal_nil_left {α : Type} [DecidableEq α] (w : List α) :
    matchesTotal (getMatchingBlocks ([] : List α) w) = 0 := by
  rw [getMatchingBlocks_nil_left]
  rfl

theorem matchesTotal_nil_right {α : Type} [DecidableEq α] (w : List α) :
    matchesTotal (getMatchingBlocks w ([] : List α)) = 0 := by
  rw [getMatchingBlocks_nil_right]
  rfl

/-! ### Claims C4-C5 about the line-diff loop -/

theorem diffLoop_invariant (ls : List String) : ∀ st : DiffLoopState,
    st.added = (st.diffs.filter (fun d => decide (d.type = ChangeType.added))).length →
    st.removed = (st.diffs.filter (fun d => decide (d.type = ChangeType.removed))).length →
    (∀ d ∈ st.diffs, d.type = ChangeType.added ∨ d.type = ChangeType.removed) →
    (ls.foldl diffLoopStep st).added
      = (((ls.foldl diffLoopStep st).diffs.filter
          (fun d => decide (d.type = ChangeType.added))).length)
    ∧ (ls.foldl diffLoopStep st).removed
      = (((ls.foldl diffLoopStep st).diffs.filter
          (fun d => decide (d.type = ChangeType.removed))).length)
    ∧ (∀ d ∈ (ls.foldl diffLoopStep st).diffs,
        d.type = ChangeType.added ∨ d.type = ChangeType.removed)
    ∧ (ls.foldl diffLoopStep st).changed = st.changed := by
  induction ls with
  | nil => intro st h1 h2 h3; exact ⟨h1, h2, h3, rfl⟩
  | cons line rest ih =>
    intro st h1 h2 h3
    rw [List.foldl_cons]
    by_cases hat : pyStartsWith line "@@" = true
    · cases hp : parseDestStart line with
      | some n =>
        have hstep : diffLoopStep st line = { st with line_num := n } := by
          simp [diffLoopStep, hat, hp]
        rw [hstep]
        exact ih _ h1 h2 h3
      | none =>
        have hstep : diffLoopStep st line = st := by
          simp [diffLoopStep, hat, hp]
        rw [hstep]
        exact ih _ h1 h2 h3
    · by_cases hfh : pyStartsWith line "---" = true ∨ pyStartsWith line "+++" = true
      · have hstep : diffLoopStep st line = st := by
          simp only [diffLoopStep, hat]
          simp [hfh]
        rw [hstep]
        exact ih _ h1 h2 h3
      · push_neg at hfh
        have hm1 : pyStartsWith line "---" = false := by simp [hfh.1]
        have hm2 : pyStartsWith line "+++" = false := by simp [hfh.2]
        by_cases hmin : pyStartsWith line "-" = true
        · have hstep : diffLoopStep st line = { st with
              diffs := st.diffs ++ [⟨.removed, st.line_num, pyDropFirst line, none⟩],
              removed := st.removed + 1 } := by
            simp [diffLoopStep, hat, hm1, hm2, hmin]
          rw [hstep]
          apply ih
          · simpa [List.filter_append] using h1
          · simpa [List.filter_append] using h2
          · intro d hd
            rcases List.mem_append.mp hd with hd | hd
            · exact h3 d hd
            · rw [List.mem_singleton.mp hd]
              exact Or.inr rfl
        · by_cases hplus : pyStartsWith line "+" = true
          · have hstep : diffLoopStep st line = { st with
                diffs := st.diffs ++ [⟨.added, st.line_num, pyDropFirst line, none⟩],
                added := st.added + 1, line_num := st.line_num + 1 } := by
              simp [diffLoopStep, hat, hm1, hm2, hmin, hplus]
            rw [hstep]
            apply ih
            · simpa [List.filter_append] using h1
            · simpa [List.filter_append] using h2
            · intro d hd
              rcases List.mem_append.mp hd with hd | hd
              · exact h3 d hd
              · rw [List.mem_singleton.mp hd]
                exact Or.inl rfl
          · have hstep : diffLoopStep st line = { st with line_num := st.line_num + 1 } := by
              simp [diffLoopStep, hat, hm1, hm2, hmin, hplus]
            rw [hstep]
            exact ih _ h1 h2 h3

/-- Claim C4: for every pair of inputs, `added_lines` equals the number
of `added` entries in `diffs`, `removed_lines` the number of `removed`
entries, the summary states exactly those two counts after the band
sentence, `changed_lines` is 0, and no `changed` or `unchanged` entry
ever appears in `diffs`. -/
theorem c4_count_invariants (t1 t2 : String) :
    (compare_documents t1 t2).added_lines
      = (((compare_documents t1 t2).diffs.filter
          (fun d => decide (d.type = ChangeType.added))).length)
    ∧ (compare_documents t1 t2).removed_lines
      = (((compare_documents t1 t2).diffs.filter
          (fun d => decide (d.type = ChangeType.removed))).length)
    ∧ (compare_documents t1 t2).changed_lines = 0
    ∧ (∀ d ∈ (compare_documents t1 t2).diffs,
        d.type = ChangeType.added ∨ d.type = ChangeType.removed)
    ∧ (compare_documents t1 t2).summary
      = bandOf (simQ t1 t2) ++ " " ++ toString (compare_documents t1 t2).added_lines
        ++ " lines added, " ++ toString (compare_documents t1 t2).removed_lines
        ++ " lines removed." := by
  have h := diffLoop_invariant
    (unifiedDiff (pySplitlines t1) (pySplitlines t2) "Document 1" "Document 2" 3)
    ⟨[], 0, 0, 0, 0⟩ rfl rfl (by simp)
  simp only [compare_documents]
  exact ⟨h.1, h.2.1, h.2.2.2, h.2.2.1, trivial⟩

/-- Claim C5: per-line behaviour of the diff loop: a `@@` hunk header
whose destination start parses resets the counter to it; `---`/`+++`
file headers are skipped; a `-` line appends a `removed` record carrying
everything after the prefix and does not advance the counter; a `+` line
appends an `added` record at the current counter and then advances it;
any other non-header line advances the counter and emits nothing. -/
theorem c5_line_loop_cases (st : DiffLoopState) (line : String) :
    (pyStartsWith line "@@" = true → ∀ n : Int, parseDestStart line = some n →
      diffLoopStep st line = { st with line_num := n })
    ∧ (pyStartsWith line "@@" = false →
       (pyStartsWith line "---" = true ∨ pyStartsWith line "+++" = true) →
       diffLoopStep st line = st)
    ∧ (pyStartsWith line "@@" = false → pyStartsWith line "---" = false →
       pyStartsWith line "+++" = false → pyStartsWith line "-" = true →
       diffLoopStep st line = { st with
         diffs := st.diffs ++ [⟨.removed, st.line_num, pyDropFirst line, none⟩],
         removed := st.removed + 1 })
    ∧ (pyStartsWith line "@@" = false → pyStartsWith line "---" = false →
       pyStartsWith line "+++" = false → pyStartsWith line "-" = false →
       pyStartsWith line "+" = true →
       diffLoopStep st line = { st with
         diffs := st.diffs ++ [⟨.added, st.line_num, pyDropFirst line, none⟩],
         added := st.added + 1, line_num := st.line_num + 1 })
    ∧ (pyStartsWith line "@@" = false → pyStartsWith line "---" = false →
       pyStartsWith line "+++" = false → pyStartsWith line "-" = false →
       pyStartsWith line "+" = false →
       diffLoopStep st line = { st with line_num := st.line_num + 1 }) := by
  refine ⟨?_, ?_, ?_, ?_, ?_⟩
  · intro h1 n h2
    simp [diffLoopStep, h1, h2]
  · intro h1 h2
    simp only [diffLoopStep, h1]
    simp [h2]
  · intro h1 h2 h3 h4
    simp [diffLoopStep, h1, h2, h3, h4]
  · intro h1 h2 h3 h4 h5
    simp [diffLoopStep, h1, h2, h3, h4, h5]
  · intro h1 h2 h3 h4 h5
    simp [diffLoopStep, h1, h2, h3, h4, h5]

theorem c5_witness :
    diffLoopStep ⟨[], 0, 0, 0, 0⟩ "@@ -1,2 +7,3 @@"
      = ⟨[], 0, 0, 0, 7⟩
    ∧ diffLoopStep ⟨[], 0, 0, 0, 7⟩ "-old line"
      = ⟨[⟨.removed, 7, "old line", none⟩], 0, 1, 0, 7⟩
    ∧ diffLoopStep ⟨[], 0, 0, 0, 7⟩ "+new line"
      = ⟨[⟨.added, 7, "new line", none⟩], 1, 0, 0, 8⟩
    ∧ diffLoopStep ⟨[], 0, 0, 0, 7⟩ " context"
      = ⟨[], 0, 0, 0, 8⟩ :=
  ⟨(c5_line_loop_cases ⟨[], 0, 0, 0, 0⟩ "@@ -1,2 +7,3 @@").1 (by decide) 7 (by decide),
   (c5_line_loop_cases ⟨[], 0, 0, 0, 7⟩ "-old line").2.2.1
     (by decide) (by decide) (by decide) (by decide),
   (c5_line_loop_cases ⟨[], 0, 0, 0, 7⟩ "+new line").2.2.2.1
     (by decide) (by decide) (by decide) (by decide) (by decide),
   (c5_line_loop_cases ⟨[], 0, 0, 0, 7⟩ " context").2.2.2.2
     (by decide) (by decide) (by decide) (by decide) (by decide)⟩

/-! ### Claim C6: the word-level diff -/

/-- The record that one opcode contributes to `get_word_level_diff`:
nothing for `equal`, a `changed`/`removed`/`added` record otherwise, with
spans joined by spaces and positions `i1` (first sequence) for
replace/delete and `j1` (second sequence) for insert. -/
def wordOpRecord (words1 words2 : List String) (c : Opcode) : Option WordChange :=
  match c.tag with
  | .equal => none
  | .replace => some (.changed (joinSp ((words1.drop c.i1).take (c.i2 - c.i1)))
      (joinSp ((words2.drop c.j1).take (c.j2 - c.j1))) c.i1)
  | .delete => some (.removed (joinSp ((words1.drop c.i1).take (c.i2 - c.i1))) c.i1)
  | .insert => some (.added (joinSp ((words2.drop c.j1).take (c.j2 - c.j1))) c.j1)

theorem wordDiff_foldl_eq (words1 words2 : List String) (ops : List Opcode) :
    ∀ acc : List WordChange,
    ops.foldl (fun changes c =>
      match c.tag with
      | .equal => changes
      | .replace => changes ++ [.changed (joinSp ((words1.drop c.i1).take (c.i2 - c.i1)))
          (joinSp ((words2.drop c.j1).take (c.j2 - c.j1))) c.i1]
      | .delete => changes ++ [.removed (joinSp ((words1.drop c.i1).take (c.i2 - c.i1))) c.i1]
      | .insert => changes ++ [.added (joinSp ((words2.drop c.j1).take (c.j2 - c.j1))) c.j1]) acc
    = acc ++ ops.filterMap (wordOpRecord words1 words2) := by
  induction ops with
  | nil => intro acc; simp
  | cons c cs ih =>
    intro acc
    rw [List.foldl_cons, List.filterMap_cons]
    cases htag : c.tag <;> simp only [htag] <;> rw [ih] <;>
      simp [wordOpRecord, htag, List.append_assoc]

/-- Claim C6: `get_word_level_diff` tokenizes both inputs by whitespace
and emits, in opcode order, exactly one record per non-equal opcode
(replace → `changed` with the joined old/new spans at `i1`, delete →
`removed` at `i1`, insert → `added` at `j1`; equal opcodes contribute
nothing); in particular on "the cat sat" vs "the dog sat" it returns
exactly one `changed` record cat → dog at position 1. -/
theorem c6_word_level_diff :
    (∀ t1 t2 : String, get_word_level_diff t1 t2
      = (getOpcodes (pySplitWs t1) (pySplitWs t2)).filterMap
          (wordOpRecord (pySplitWs t1) (pySplitWs t2)))
    ∧ get_word_level_diff "the cat sat" "the dog sat"
      = [WordChange.changed "cat" "dog" 1] := by
  constructor
  · intro t1 t2
    simp only [get_word_level_diff]
    rw [wordDiff_foldl_eq]
    simp
  · decide

/-! ### Claim C9: totality and empty inputs -/

/-- Claim C9: the three core functions are total Lean functions by
construction (every branch, including the `except: pass` handler, is
modelled); on empty input `parse_document_structure` returns `[]`, and
empty diff inputs yield zero line/word counts, empty diff sequences, and
the matcher ratio 1 (similarity 100) on two empty inputs. -/
theorem c9_totality_empty_inputs :
    parse_document_structure "" = []
    ∧ compare_documents "" ""
      = ⟨"Document 1", "Document 2", 100, 0, 0, 0, 0, 0, [],
         "Documents are nearly identical. 0 lines added, 0 lines removed."⟩
    ∧ get_word_level_diff "" "" = []
    ∧ ratioQ ("" : String).data ("" : String).data = 1 := by
  refine ⟨by decide, by decide, by decide, by decide⟩

/-! ### Claim C8: similarity under argument swap -/

/-- Claim C8 counterexample: the matching-blocks ratio is not symmetric.
On "aabbcd" vs "bbdaa" the matcher keeps only "aa" (total 2 of 11), while
on "bbdaa" vs "aabbcd" it keeps "bb" and then "d" (total 3 of 11): the
similarity percentages differ (36.36 vs 54.55) and so do the qualitative
band sentences (substantially different vs moderate differences). -/
theorem c8_counterexample :
    (compare_documents "aabbcd" "bbdaa").similarity_percent = mkRat 909 25
    ∧ (compare_documents "bbdaa" "aabbcd").similarity_percent = mkRat 1091 20
    ∧ ratioQ ("aabbcd" : String).data ("bbdaa" : String).data
        ≠ ratioQ ("bbdaa" : String).data ("aabbcd" : String).data
    ∧ (compare_documents "aabbcd" "bbdaa").similarity_percent
        ≠ (compare_documents "bbdaa" "aabbcd").similarity_percent
    ∧ (compare_documents "aabbcd" "bbdaa").summary
        = "Documents are substantially different. 1 lines added, 1 lines removed."
    ∧ (compare_documents "bbdaa" "aabbcd").summary
        = "Documents have moderate differences. 1 lines added, 1 lines removed." := by
  refine ⟨by decide, by decide, by decide, by decide, by decide, by decide⟩

/-! ### Claims C7, C8 (amended) and C10 -/

theorem simQ_self (s : String) : simQ s s = 100 := by
  unfold simQ
  rw [matchesTotal_self]
  by_cases hlen : s.data.length = 0
  · rw [if_neg (by omega)]
  · rw [if_pos (by omega), Rat.mkRat_eq_div]
    have h2 : ((s.data.length + s.data.length : ℕ) : ℚ) ≠ 0 :=
      Nat.cast_ne_zero.mpr (by omega)
    rw [div_eq_iff h2]
    push_cast
    ring

theorem pyRound2_hundred : pyRound2 100 = 100 := by decide

theorem bandOf_hundred : bandOf 100 = "Documents are nearly identical." := by decide

/-- `compare_documents` of a document with itself: the diff is empty, so
the loop state never moves and the record is fully determined. -/
theorem compare_documents_self (s : String) :
    compare_documents s s
      = ⟨"Document 1", "Document 2", pyRound2 (simQ s s), (pySplitlines s).length,
         (pySplitlines s).length, 0, 0, 0, [],
         bandOf (simQ s s) ++ " " ++ toString (0 : Nat) ++ " lines added, "
           ++ toString (0 : Nat) ++ " lines removed."⟩ := by
  simp only [compare_documents]
  rw [unifiedDiff_self]
  rfl

/-- C7: for every string `s`, `compare_documents s s` reports
`similarity_percent = 100`, `added_lines = 0`, `removed_lines = 0` and an
empty `diffs` list; the matcher's ratio on the self-comparison (including
the empty string, via `_calculate_ratio`'s `length = 0` branch) is 1. -/
theorem c7_self_compare (s : String) :
    (compare_documents s s).similarity_percent = 100
    ∧ (compare_documents s s).added_lines = 0
    ∧ (compare_documents s s).removed_lines = 0
    ∧ (compare_documents s s).diffs = []
    ∧ (compare_documents s s).summary
        = "Documents are nearly identical. 0 lines added, 0 lines removed."
    ∧ ratioQ s.data s.data = 1 := by
  rw [compare_documents_self]
  refine ⟨?_, rfl, rfl, rfl, ?_, ratioQ_self s.data⟩
  · show pyRound2 (simQ s s) = 100
    rw [simQ_self]
    exact pyRound2_hundred
  · show bandOf (simQ s s) ++ " " ++ toString (0 : Nat) ++ " lines added, "
        ++ toString (0 : Nat) ++ " lines removed." = _
    rw [simQ_self, bandOf_hundred]
    decide

theorem simQ_empty_left (b : String) : simQ "" b = simQ b "" := by
  unfold simQ
  rw [show ("" : String).data = [] from rfl, matchesTotal_nil_left, matchesTotal_nil_right]
  simp only [List.length_nil, Nat.zero_add, Nat.add_zero, Nat.mul_zero]

/-- C8 (amended): the similarity and its band are symmetric when the two
texts are equal or one of them is empty (in general they are not, see
`c8_counterexample`). -/
theorem c8_restricted_symmetry (a b : String)
    (h : a = b ∨ a = "" ∨ b = "") :
    (compare_documents a b).similarity_percent
      = (compare_documents b a).similarity_percent
    ∧ bandOf (simQ a b) = bandOf (simQ b a) := by
  have hsim : simQ a b = simQ b a := by
    rcases h with rfl | rfl | rfl
    · rfl
    · exact simQ_empty_left b
    · exact (simQ_empty_left a).symm
  constructor
  · show pyRound2 (simQ a b) = pyRound2 (simQ b a)
    rw [hsim]
  · rw [hsim]

theorem c8_witness :
    (("" : String) = "x" ∨ ("" : String) = "" ∨ ("x" : String) = "")
    ∧ (compare_documents "" "x").similarity_percent
        = (compare_documents "x" "").similarity_percent :=
  ⟨Or.inr (Or.inl rfl), (c8_restricted_symmetry "" "x" (Or.inr (Or.inl rfl))).1⟩

/-- C10: `get_word_level_diff` depends only on the whitespace-tokenized
word sequences of its inputs, and returns `[]` whenever the two token
sequences are equal (in particular for texts differing only in
whitespace layout). -/
theorem c10_token_invariance :
    (∀ t1 t2 u1 u2 : String, pySplitWs t1 = pySplitWs u1 →
        pySplitWs t2 = pySplitWs u2 →
        get_word_level_diff t1 t2 = get_word_level_diff u1 u2)
    ∧ (∀ t1 t2 : String, pySplitWs t1 = pySplitWs t2 →
        get_word_level_diff t1 t2 = []) := by
  constructor
  · intro t1 t2 u1 u2 h1 h2
    simp only [get_word_level_diff, h1, h2]
  · intro t1 t2 h
    simp only [get_word_level_diff, h]
    rw [getOpcodes_self]
    by_cases hlen : (pySplitWs t2).length = 0
    · rw [if_pos hlen]
      rfl
    · rw [if_neg hlen]
      rfl

theorem c10_witness :
    (pySplitWs "a  b" = pySplitWs "a b" ∧ pySplitWs "a c" = pySplitWs " a c"
      ∧ get_word_level_diff "a  b" "a c" = get_word_level_diff "a b" " a c")
    ∧ (pySplitWs "the cat" = pySplitWs " the  cat "
      ∧ get_word_level_diff "the cat" " the  cat " = []) :=
  ⟨⟨by decide, by decide,
      c10_token_invariance.1 "a  b" "a c" "a b" " a c" (by decide) (by decide)⟩,
   ⟨by decide, c10_token_invariance.2 "the cat" " the  cat " (by decide)⟩⟩
